import Mathlib

/-!
Shallow embedding of the Diario Trader ledger core (src/index.tsx, mirrored in
src/index.js): locale number parsing, trade metrics, CSV codec and import
merge, the Google-Sheets mirror reconciler (`syncToSheet`), trade deletion,
filters, and the silent/interactive error surfacing of the sync routines.

Modelling conventions:
* JS numbers are modelled as exact rationals `ℚ`; a possibly-NaN JS number is
  `Option ℚ` with `none` playing NaN (all comparisons with NaN are false).
* JS strings are Lean `String`s; `String(n)` for an integer is modelled by an
  explicit decimal printer (`intStr`), which is what JS produces for integral
  values.
* Remote spreadsheet state is a list of rows, each row a list of cell strings
  (the Sheets values API reads cells back as strings); `values.append` adds
  rows at the end of the table and `values.update` at `A<r>` overwrites the
  first `|row|` cells of (1-based) row `r`.
-/

namespace DiarioTrader

/-! ### Decimal digits and the JS integer-to-string conversion -/

/-- The decimal digit character for `d < 10` (out-of-range values never occur
in our uses and map to a placeholder). -/
def digitChar : Nat → Char
  | 0 => '0' | 1 => '1' | 2 => '2' | 3 => '3' | 4 => '4'
  | 5 => '5' | 6 => '6' | 7 => '7' | 8 => '8' | 9 => '9'
  | _ => '*'

/-- Numeric value of a digit character (JS `charCode - 48`). -/
def digitVal (c : Char) : Nat := c.toNat - 48

/-- Fuel-driven digit expansion (structural recursion, so that concrete
instances reduce inside the kernel). -/
def natDigitsAux : Nat → Nat → List Char
  | 0, _ => []
  | fuel + 1, n =>
    if n < 10 then [digitChar n]
    else natDigitsAux fuel (n / 10) ++ [digitChar (n % 10)]

/-- Decimal digit list of a natural number, most significant first. -/
def natDigits (n : Nat) : List Char := natDigitsAux (n + 1) n

/-- Value of a digit list read most-significant-first (how a JS numeric
parse accumulates digits). -/
def valOfDigits (ds : List Char) : Nat :=
  ds.foldl (fun a c => a * 10 + digitVal c) 0

/-- Decimal string of a natural number; models JS `String(n)` for `n : ℕ`. -/
def natStr (n : Nat) : String := ⟨natDigits n⟩

/-- Decimal string of an integer; models JS `String(n)` for integral `n`. -/
def intStr (n : Int) : String :=
  if n < 0 then "-" ++ natStr n.natAbs else natStr n.natAbs

/-! ### The Trade record (src/index.tsx lines 26-41)

Field types reflect the values the program can actually hold at runtime:
`id` is `parseInt`-produced (an integer; rows whose id is NaN are dropped at
import, and `Date.now()` is integral), `tradeNumber` and the five numeric
fields may be NaN for imported rows (`Option` with `none` as NaN), and
`side` is a plain string at runtime (the TS annotation is only a cast).
A string field decoded from a CSV whose header lacks that column is
`undefined` in JS; every operation modelled here treats it exactly like the
empty string, which is how it is modelled.  `structure` is a Lean keyword,
hence the primed field name. -/
structure Trade where
  id : Int
  asset : String
  tradeNumber : Option Int
  side : String
  date : String
  lots : Option ℚ
  entryPrice : Option ℚ
  exitPrice : Option ℚ
  points : Option ℚ
  result : Option ℚ
  notes : String
  region : String
  structure' : String
  trigger : String
deriving DecidableEq, Repr

/-! ### Metrics calculator (src/index.tsx lines 751-755) -/

/-- Round-half-away-from-zero to an integer (the rounding `toFixed` applies
to the exact decimal value). -/
def roundHalfAwayFromZero (x : ℚ) : ℤ :=
  if 0 ≤ x then ⌊x + 1 / 2⌋ else -⌊-x + 1 / 2⌋

/-- `parseFloat(v.toFixed(2))`: round to 2 fractional decimal digits. -/
def round2 (x : ℚ) : ℚ := (roundHalfAwayFromZero (x * 100) : ℚ) / 100

/-- `calculateTradeMetrics` (src/index.tsx lines 751-755).  `side` is compared
against the literal `'Compra'`; any other runtime string takes the sell
branch, exactly as `side === 'Compra' ? ... : ...` does. -/
def calculateTradeMetrics (side : String) (lots entryPrice exitPrice : ℚ) : ℚ × ℚ :=
  let points := if side = "Compra" then exitPrice - entryPrice else entryPrice - exitPrice
  let result := points * 10 * lots
  (round2 points, round2 result)

/-! ### Filters and trade status (src/index.tsx lines 49-54, 1225-1233, 1562-1566) -/

/-- JS `x > 0` on a possibly-NaN number: false for NaN. -/
def jsGtZ : Option ℚ → Bool
  | some q => decide (0 < q)
  | none => false

/-- JS `x < 0` on a possibly-NaN number: false for NaN. -/
def jsLtZ : Option ℚ → Bool
  | some q => decide (q < 0)
  | none => false

/-- JS `x <= 0` on a possibly-NaN number: false for NaN. -/
def jsLeZ : Option ℚ → Bool
  | some q => decide (q ≤ 0)
  | none => false

structure Filters where
  asset : String
  side : String
  date : String
  result : String
deriving DecidableEq, Repr

/-- `sub.isPrefixOf l || containsSub sub (tail l)`: JS `String.includes`
over the char list. -/
def containsSub (sub : List Char) : List Char → Bool
  | [] => sub.isEmpty
  | c :: rest => sub.isPrefixOf (c :: rest) || containsSub sub rest

/-- JS `s.includes(sub)`. -/
def strIncludes (s sub : String) : Bool := containsSub sub.data s.data

/-- The result-sign conjunct of `applyFilters` (src/index.tsx line 1230):
`filters.result === 'Todos' || (filters.result === 'Gain' && trade.result > 0)
|| (filters.result === 'Loss' && trade.result <= 0)`. -/
def resultSelMatch (sel : String) (result : Option ℚ) : Bool :=
  sel = "Todos" || (sel = "Gain" && jsGtZ result) || (sel = "Loss" && jsLeZ result)

/-- One trade's predicate inside `applyFilters` (src/index.tsx lines 1226-1231). -/
def tradeMatches (f : Filters) (t : Trade) : Bool :=
  (f.asset = "" || strIncludes t.asset.toLower f.asset.toLower) &&
  (f.side = "Todos" || t.side = f.side) &&
  (f.date = "" || t.date = f.date) &&
  resultSelMatch f.result t.result

/-- `applyFilters` (src/index.tsx lines 1225-1233), with the module-level
`trades` and `filters` passed explicitly. -/
def applyFilters (f : Filters) (trades : List Trade) : List Trade :=
  trades.filter (tradeMatches f)

/-- `getTradeStatus` (src/index.tsx lines 1562-1566), returning
(status, className). -/
def getTradeStatus (t : Trade) : String × String :=
  if jsGtZ t.result then ("Gain", "gain")
  else if jsLtZ t.result then ("Loss", "loss")
  else ("Zero a Zero", "zero")

/-! ### Locale number parser (src/index.tsx lines 73-100) -/

/-- Longest digit prefix of a char list, returning (digits, rest). -/
def spanDigits : List Char → List Char × List Char
  | [] => ([], [])
  | c :: rest =>
    if c.isDigit then
      let (ds, r) := spanDigits rest
      (c :: ds, r)
    else ([], c :: rest)

/-- Optional leading sign: (isNegative, rest). -/
def splitSign : List Char → Bool × List Char
  | '-' :: rest => (true, rest)
  | '+' :: rest => (false, rest)
  | cs => (false, cs)

/-- Exponent value after a leading `e`/`E` has been consumed; an `e` not
followed by (sign and) digits contributes nothing, as the longest valid
prefix then ends before it. -/
def parseExpAfterE (cs : List Char) : Int :=
  let (neg, cs1) := splitSign cs
  let (ds, _) := spanDigits cs1
  if ds.isEmpty then 0
  else if neg then -(valOfDigits ds : Int) else (valOfDigits ds : Int)

/-- Optional exponent part of a JS decimal literal. -/
def parseExp : List Char → Int
  | 'e' :: rest => parseExpAfterE rest
  | 'E' :: rest => parseExpAfterE rest
  | _ => 0

/-- The rational value of a parsed JS decimal literal: sign, integer-part
value, fractional-part value and digit count, exponent. -/
def jsFloatVal (neg : Bool) (ipv fpv fplen : Nat) (e : Int) : ℚ :=
  let mant : ℚ := (ipv : ℚ) + (fpv : ℚ) / 10 ^ fplen
  let v : ℚ := mant * (10 : ℚ) ^ e
  if neg then -v else v

/-- ECMAScript `parseFloat`: skip leading whitespace, then parse the longest
prefix of the form `[+-]? digits [. digits?]? [eE [+-]? digits]?`; `none`
models NaN (no parsable prefix).  `Infinity` literals fall outside the
rational model and are mapped to `none`; no value of this program produces
them. -/
def jsParseFloat (s : String) : Option ℚ :=
  let cs := s.data.dropWhile (fun c => c.isWhitespace)
  let (neg, cs1) := splitSign cs
  let (ip, cs2) := spanDigits cs1
  let (fp, cs3) :=
    match cs2 with
    | '.' :: rest => spanDigits rest
    | _ => ([], cs2)
  if ip.isEmpty && fp.isEmpty then none
  else some (jsFloatVal neg (valOfDigits ip) (valOfDigits fp) fp.length (parseExp cs3))

/-- JS `String.trim` over the char list: strip whitespace at both ends. -/
def jsTrim (cs : List Char) : List Char :=
  ((cs.dropWhile (·.isWhitespace)).reverse.dropWhile (·.isWhitespace)).reverse

/-- JS `lastIndexOf` over a char list: last position of `c`, or `-1`. -/
def lastIdx : List Char → Char → Int
  | [], _ => -1
  | x :: rest, c =>
    let r := lastIdx rest c
    if r ≥ 0 then r + 1 else if x = c then 0 else -1

/-- JS `String.replace(needle, repl)` with single-char arguments: replace the
first occurrence only. -/
def replaceFirst : List Char → Char → Char → List Char
  | [], _, _ => []
  | x :: rest, a, b => if x = a then b :: rest else x :: replaceFirst rest a b

/-- `parseLocaleNumber` (src/index.tsx lines 73-100).  The input is
`Option String` (`none` for JS `null`); the output is `Option ℚ` with `none`
for NaN. -/
def parseLocaleNumber : Option String → Option ℚ
  | none => none
  | some v =>
    if v = "" then none
    else
      let s := jsTrim v.data
      let hasComma := s.contains ','
      let hasDot := s.contains '.'
      if hasComma && hasDot then
        if lastIdx s ',' > lastIdx s '.' then
          jsParseFloat ⟨replaceFirst (s.filter (· ≠ '.')) ',' '.'⟩
        else
          jsParseFloat ⟨s.filter (· ≠ ',')⟩
      else if hasComma then
        jsParseFloat ⟨replaceFirst s ',' '.'⟩
      else
        jsParseFloat ⟨s⟩

/-! ### CSV codec and import merge (src/index.tsx lines 933-966 and 1139-1222) -/

/-- ECMAScript `parseInt(s, 10)`: skip leading whitespace, optional sign,
then the longest digit prefix; `none` (NaN) if there is none. -/
def jsParseInt (s : String) : Option Int :=
  let cs := s.data.dropWhile (fun c => c.isWhitespace)
  let (neg, cs1) := splitSign cs
  let (ds, _) := spanDigits cs1
  if ds.isEmpty then none
  else some (if neg then -(valOfDigits ds : Int) else (valOfDigits ds : Int))

/-- `parseInt` applied to a field that may be `undefined` (absent column):
`parseInt(undefined, 10)` is NaN. -/
def jsParseIntOpt : Option String → Option Int
  | none => none
  | some s => jsParseInt s

/-- `parseFloat` applied to a field that may be `undefined`:
`parseFloat(undefined)` is NaN. -/
def jsParseFloatOpt : Option String → Option ℚ
  | none => none
  | some s => jsParseFloat s

/-- Least `k` with `den ∣ 10^k`, searched up to `den` (a bound that suffices
whenever some `k` works); `none` when the rational has no finite decimal
expansion. -/
def decExp (den : Nat) : Option Nat :=
  (List.range (den + 1)).find? (fun k => 10 ^ k % den == 0)

/-- Modelled JS `String(x)` for a finite JS number: the shortest plain
decimal expansion, which is what JS prints for the decimal-finite values in
plain-notation range that this program produces.  Rationals with no finite
decimal expansion cannot arise from JS doubles and print as a placeholder. -/
def ratStr (q : ℚ) : String :=
  match decExp q.den with
  | some k =>
    let m : Nat := q.num.natAbs * (10 ^ k / q.den)
    let s : String :=
      if k = 0 then natStr m
      else natStr (m / 10 ^ k) ++ "." ++
        ⟨List.replicate (k - (natDigits (m % 10 ^ k)).length) '0' ++ natDigits (m % 10 ^ k)⟩
    if q.num < 0 then "-" ++ s else s
  | none => "(nondecimal)"

/-- JS `String(x)` for a possibly-NaN number (`String(NaN) = "NaN"`). -/
def jsNumStr : Option ℚ → String
  | none => "NaN"
  | some q => ratStr q

/-- JS `String(x)` for a possibly-NaN integral number. -/
def jsIntOptStr : Option Int → String
  | none => "NaN"
  | some n => intStr n

/-- The `headerConfig` labels of `exportToCSV` (src/index.tsx lines 936-950),
in column order; `notes` is not exported. -/
def exportHeaderLabels : List String :=
  ["id", "asset", "tradeNumber", "side", "date", "Contratos/Quantidade",
   "entryPrice", "exitPrice", "Resultado Pontos", "Resultado Monetário/R$",
   "region", "structure", "trigger"]

/-- The cell strings of one exported trade row, in `headerConfig` order. -/
def exportRowCells (t : Trade) : List String :=
  [intStr t.id, t.asset, jsIntOptStr t.tradeNumber, t.side, t.date,
   jsNumStr t.lots, jsNumStr t.entryPrice, jsNumStr t.exitPrice,
   jsNumStr t.points, jsNumStr t.result, t.region, t.structure', t.trigger]

/-- `Array.prototype.join(sep)` for string arrays. -/
def joinSep (sep : String) : List String → String
  | [] => ""
  | [x] => x
  | x :: y :: ys => x ++ sep ++ joinSep sep (y :: ys)

/-- The CSV text produced by `exportToCSV` (src/index.tsx lines 952-958):
header line, `\n`, then the comma-joined rows joined by `\n` (the content of
the downloaded file, after the data-URI envelope). -/
def encodeCSV (trades : List Trade) : String :=
  joinSep "," exportHeaderLabels ++ "\n" ++
    joinSep "\n" (trades.map (fun t => joinSep "," (exportRowCells t)))

/-- JS `s.split(',')` over the char list. -/
def splitOnChar (sep : Char) : List Char → List (List Char)
  | [] => [[]]
  | c :: rest =>
    let r := splitOnChar sep rest
    if c = sep then [] :: r
    else (c :: r.headD []) :: r.tail

/-- JS `s.split(/\r?\n/)` over the char list. -/
def splitLinesRN : List Char → List (List Char)
  | [] => [[]]
  | '\r' :: '\n' :: rest => [] :: splitLinesRN rest
  | '\n' :: rest => [] :: splitLinesRN rest
  | c :: rest =>
    let r := splitLinesRN rest
    (c :: r.headD []) :: r.tail

/-- JS `s.trim()` as a `String` function. -/
def jsTrimStr (s : String) : String := ⟨jsTrim s.data⟩

/-- `importHeaderMapping` (src/index.tsx lines 1157-1161): translate the
three human-readable labels back to field names; other headers pass
through. -/
def importHeaderMapping (h : String) : String :=
  if h = "Resultado Monetário/R$" then "result"
  else if h = "Resultado Pontos" then "points"
  else if h = "Contratos/Quantidade" then "lots"
  else h

/-- The `tradeObject[header] = values[i].trim()` loop (src/index.tsx lines
1174-1177): the value of field `f` is the (trimmed) cell under the last
header equal to `f`, and `undefined` (`none`) when no header matches. -/
def fieldLookup (headers vals : List String) (f : String) : Option String :=
  ((headers.zip vals).filter (fun p => p.1 = f)).getLast?.map (fun p => jsTrimStr p.2)

/-- Decoding of one CSV data line (src/index.tsx lines 1168-1194): `none`
both for a line whose field count does not match the header (skipped with a
warning) and for a row whose id does not parse to an integer (dropped by the
`!isNaN(trade.id)` filter) — the two rejections produce the same result.
A field whose column is absent is `undefined`; string fields are modelled as
`""` in that case, numeric fields as NaN. -/
def decodeLine (headers : List String) (line : List Char) : Option Trade :=
  let vals := (splitOnChar ',' line).map (fun cs => (⟨cs⟩ : String))
  if vals.length = headers.length then
    match jsParseIntOpt (fieldLookup headers vals "id") with
    | some i =>
      some { id := i,
             asset := (fieldLookup headers vals "asset").getD "",
             tradeNumber := jsParseIntOpt (fieldLookup headers vals "tradeNumber"),
             side := (fieldLookup headers vals "side").getD "",
             date := (fieldLookup headers vals "date").getD "",
             lots := jsParseFloatOpt (fieldLookup headers vals "lots"),
             entryPrice := jsParseFloatOpt (fieldLookup headers vals "entryPrice"),
             exitPrice := jsParseFloatOpt (fieldLookup headers vals "exitPrice"),
             points := jsParseFloatOpt (fieldLookup headers vals "points"),
             result := jsParseFloatOpt (fieldLookup headers vals "result"),
             notes := "",
             region := (fieldLookup headers vals "region").getD "",
             structure' := (fieldLookup headers vals "structure").getD "",
             trigger := (fieldLookup headers vals "trigger").getD "" }
    | none => none
  else none

/-- The decoding phase of `handleImport` (src/index.tsx lines 1152-1194):
split the trimmed text into lines, shift the header line, translate labels,
decode the data lines.  An empty header line throws `"CSV inválido"` and
imports nothing, modelled as the empty result. -/
def decodeCSV (text : String) : List Trade :=
  match splitLinesRN (jsTrim text.data) with
  | [] => []
  | headerLine :: dataLines =>
    if headerLine = [] then []
    else
      let headers := (splitOnChar ',' headerLine).map
        (fun cs => importHeaderMapping (jsTrimStr ⟨cs⟩))
      dataLines.filterMap (decodeLine headers)

/-- Stable insertion of a trade into an id-ascending list, placing it before
the first strictly larger id (so that equal ids keep their original order,
as the stable JS `sort((a, b) => a.id - b.id)` does). -/
def insertById (t : Trade) : List Trade → List Trade
  | [] => [t]
  | u :: us => if u.id < t.id then u :: insertById t us else t :: u :: us

/-- Stable ascending sort by id; observationally identical to the stable JS
`Array.prototype.sort` with comparator `a.id - b.id`. -/
def sortById : List Trade → List Trade
  | [] => []
  | t :: ts => insertById t (sortById ts)

/-- The merge phase of `handleImport` (src/index.tsx lines 1196-1209):
drop decoded trades whose id is already in the Ledger; if any survive,
append them and sort the Ledger by ascending id, else leave it untouched. -/
def importCSV (text : String) (trades : List Trade) : List Trade :=
  let importedTrades := decodeCSV text
  let existingIds := trades.map (fun t => t.id)
  let newTrades := importedTrades.filter (fun t => ¬ existingIds.contains t.id)
  if newTrades = [] then trades
  else sortById (trades ++ newTrades)

/-! ### Trade creation and deletion (src/index.tsx lines 798-851, 911-919) -/

/-- JS `Math.max` on two possibly-NaN integral numbers (NaN propagates). -/
def jsMaxInt : Option Int → Option Int → Option Int
  | some a, some b => some (max a b)
  | _, _ => none

/-- `Math.max(...trades.map(t => t.tradeNumber))` for a nonempty list. -/
def maxTradeNumber : List Trade → Option Int
  | [] => none
  | t :: ts => ts.foldl (fun acc u => jsMaxInt acc u.tradeNumber) t.tradeNumber

/-- `trades.length > 0 ? Math.max(...) + 1 : 1` (src/index.tsx line 814). -/
def nextTradeNumber (trades : List Trade) : Option Int :=
  if trades.isEmpty then some 1
  else (maxTradeNumber trades).map (fun n => n + 1)

/-- The validated new-trade form values: `validateTradeForm` has already
rejected non-numeric lots/prices, so they arrive as plain rationals. -/
structure TradeForm where
  asset : String
  side : String
  date : String
  lots : ℚ
  entryPrice : ℚ
  exitPrice : ℚ
  notes : String
  region : String
  structure' : String
  trigger : String

/-- The Ledger mutation of `addTrade` (src/index.tsx lines 798-851): the new
trade's id is `Date.now()` (the `now` argument), its `tradeNumber` is
`max(existing) + 1` (or 1 on an empty ledger), metrics are computed from the
form, and the trade is pushed at the end. -/
def addTrade (now : Int) (form : TradeForm) (trades : List Trade) : List Trade :=
  let m := calculateTradeMetrics form.side form.lots form.entryPrice form.exitPrice
  trades ++
    [{ id := now, asset := form.asset, tradeNumber := nextTradeNumber trades,
       side := form.side, date := form.date, lots := some form.lots,
       entryPrice := some form.entryPrice, exitPrice := some form.exitPrice,
       points := some m.1, result := some m.2, notes := form.notes,
       region := form.region, structure' := form.structure',
       trigger := form.trigger }]

/-- `confirmDelete` (src/index.tsx lines 911-919): remove the trade from the
local Ledger only.  The source deliberately performs no sheet call here (its
comment: the sheet works as a permanent log and backup of all operations). -/
def confirmDelete (deletingTradeId : Option Int) (trades : List Trade) : List Trade :=
  match deletingTradeId with
  | none => trades
  | some i => trades.filter (fun t => t.id ≠ i)

/-! ### Mirror reconciler (src/index.tsx lines 413-558)

The remote snapshot is the list of rows of the `Trades` tab, each row a list
of cell strings (the Sheets values API returns cells as strings).
`values.update` at range `A<r>` overwrites the first cells of 1-based row
`r`; `values.append` on the table adds its rows after the last row. -/

/-- The fixed ledger header row of `syncToSheet` (lines 426-429). -/
def headerRowS : List String :=
  ["ID", "Ativo", "# Operação", "Lado", "Data", "Lotes", "Preço Entrada",
   "Preço Saída", "Pontos", "Resultado R$", "Região", "Estrutura", "Gatilho",
   "Notas"]

/-- `tradeToRow` (lines 430-433): the 14 cells written for one trade, in the
sheet's string form (`t.notes || ''` is the notes string itself, `""` for an
absent notes field). -/
def tradeToRow (t : Trade) : List String :=
  [intStr t.id, t.asset, jsIntOptStr t.tradeNumber, t.side, t.date,
   jsNumStr t.lots, jsNumStr t.entryPrice, jsNumStr t.exitPrice,
   jsNumStr t.points, jsNumStr t.result, t.region, t.structure', t.trigger,
   t.notes]

/-- `headerRow.some((h, i) => h !== sheetHeader[i])` (line 463): invalid iff
some expected label is absent or different at its position. -/
def headerIsMissingOrInvalid (sheetHeader : List String) : Bool :=
  headerRowS.enum.any (fun p => sheetHeader[p.1]? ≠ some p.2)

/-- The identity-index construction (lines 465-475): for each data row
(`slice(1)`) whose first cell is truthy (nonempty), bind that cell to the
1-based sheet row `index + 2`, in order. -/
def buildIndexAux : Nat → List (List String) → List (String × Nat)
  | _, [] => []
  | i, row :: rest =>
    (if row.headD "" ≠ "" then [(row.headD "", i + 2)] else []) ++
      buildIndexAux (i + 1) rest

/-- `sheetTradesMap` (line 465): bindings in insertion order. -/
def buildSheetMap (sheetValues : List (List String)) : List (String × Nat) :=
  buildIndexAux 0 (sheetValues.drop 1)

/-- JS `Map.get`: the value of the most recent `set` for the key. -/
def mapGet : List (String × Nat) → String → Option Nat
  | [], _ => none
  | e :: rest, k =>
    match mapGet rest k with
    | some v => some v
    | none => if e.1 = k then some e.2 else none

/-- The classification a `syncToSheet` pass computes. -/
structure SyncPlan where
  headerInvalid : Bool
  updates : List (Nat × List String)
  appends : List (List String)
deriving DecidableEq, Repr

/-- The classification loop (lines 481-491): a trade whose id string is in
the map becomes an update at that row, the others become appends, in ledger
order. -/
def classifyTrades (m : List (String × Nat)) : List Trade →
    List (Nat × List String) × List (List String)
  | [] => ([], [])
  | t :: ts =>
    let r := classifyTrades m ts
    match mapGet m (intStr t.id) with
    | some rowIndex => ((rowIndex, tradeToRow t) :: r.1, r.2)
    | none => (r.1, tradeToRow t :: r.2)

/-- One `syncToSheet` pass over a remote snapshot (lines 456-491): header
check against row 1, identity index (skipped if the header is invalid),
classification of the local trades. -/
def syncPlan (trades : List Trade) (sheetValues : List (List String)) : SyncPlan :=
  let sheetHeader := sheetValues.headD []
  let inv := headerIsMissingOrInvalid sheetHeader
  let m := if inv then [] else buildSheetMap sheetValues
  let c := classifyTrades m trades
  ⟨inv, c.1, c.2⟩

/-- The remote value operations the app can issue (`clear` and row deletion
exist in the API and are used by the taxonomy sync, never by `syncToSheet`). -/
inductive RemoteOp where
  | update (startRow : Nat) (rows : List (List String))
  | batchUpdate (data : List (Nat × List String))
  | append (rows : List (List String))
  | clearRange (range : String)
  | deleteRows (firstRow lastRow : Nat)
deriving DecidableEq, Repr

/-- Whether an operation removes or blanks remote data. -/
def RemoteOp.isDeleteOrClear : RemoteOp → Bool
  | .clearRange _ => true
  | .deleteRows _ _ => true
  | _ => false

/-- The ordered remote calls of one `syncToSheet` pass (lines 493-525):
header rewrite at `A1` first when the header is invalid, then one batched
update call if any update exists, then one append call if any new row
exists. -/
def syncOps (trades : List Trade) (sheetValues : List (List String)) : List RemoteOp :=
  let p := syncPlan trades sheetValues
  (if p.headerInvalid then [RemoteOp.update 1 [headerRowS]] else []) ++
  (if p.updates ≠ [] then [RemoteOp.batchUpdate p.updates] else []) ++
  (if p.appends ≠ [] then [RemoteOp.append p.appends] else [])

/-- The remote calls of `confirmDelete`: none (lines 915-917: the sync is
deliberately not invoked so that no operation is ever removed from the
sheet). -/
def confirmDeleteOps : List RemoteOp := []

/-- Pad the snapshot with empty rows so that row `n` exists. -/
def padTo (s : List (List String)) (n : Nat) : List (List String) :=
  s ++ List.replicate (n - s.length) []

/-- `values.update` at `A<r>` with one row: overwrite the first `row.length`
cells of 1-based row `r`, keeping cells to its right. -/
def setRow (s : List (List String)) (r : Nat) (row : List String) :
    List (List String) :=
  let s' := padTo s r
  s'.set (r - 1) (row ++ (s'.getD (r - 1) []).drop row.length)

/-- The effect of one pass on the remote snapshot: the header write when the
header was invalid, then the batched updates, then the append at the end of
the table. -/
def applySyncPlan (p : SyncPlan) (s : List (List String)) : List (List String) :=
  let s1 := if p.headerInvalid then setRow s 1 headerRowS else s
  let s2 := p.updates.foldl (fun acc pr => setRow acc pr.1 pr.2) s1
  s2 ++ p.appends

/-! ### Silent vs surfaced sync failures (src/index.tsx lines 335-340, 533-548) -/

/-- The catch handler of `syncRegOptionsToSheet` (src/index.tsx lines
335-340): the error is logged with `console.error`; the alert is issued only
when the call is not silent. -/
def syncRegOptionsFailureAlerts (silent : Bool) : List String :=
  if silent then []
  else ["Falha ao sincronizar as opções de REG com a planilha. Verifique o console."]

/-- The catch handler of `syncToSheet` (src/index.tsx lines 533-548): the
error is logged and an alert is always issued; the `silent` flag only
selects the alert prefix. -/
def syncToSheetFailureAlerts (silent : Bool) (errorMessage : String) : List String :=
  [(if silent then "Erro na sincronização automática em segundo plano."
    else "Ocorreu um erro ao sincronizar.") ++ "\n\n" ++ errorMessage]

/-- A concrete trade, parameterised by id and result, for closed instances. -/
def sampleTrade (i : Int) (res : Option ℚ) : Trade :=
  { id := i, asset := "WDOFUT", tradeNumber := some 1, side := "Compra",
    date := "2024-01-02", lots := some 1, entryPrice := some 50,
    exitPrice := some 50, points := some 0, result := res, notes := "",
    region := "Consolidação", structure' := "A-B-C de Alta",
    trigger := "2-2-1" }

/-- A concrete validated form input for closed instances. -/
def sampleForm : TradeForm :=
  { asset := "WDOFUT", side := "Venda", date := "2024-01-03", lots := 1,
    entryPrice := 50, exitPrice := 48, notes := "", region := "Região Cara",
    structure' := "A-B-C de Baixa", trigger := "2-2-1" }

/-- A CSV file whose two data rows carry the same fresh id 5. -/
def dupCsvText : String :=
  "id,asset,tradeNumber,side,date,Contratos/Quantidade,entryPrice,exitPrice,Resultado Pontos,Resultado Monetário/R$,region,structure,trigger\n5,A,1,Compra,2024-01-02,1,1,1,0,0,r,s,g\n5,A,1,Compra,2024-01-02,1,1,1,0,0,r,s,g"

/-- A CSV file with one well-formed data row with id 5. -/
def okCsvText : String :=
  "id,asset,tradeNumber,side,date,Contratos/Quantidade,entryPrice,exitPrice,Resultado Pontos,Resultado Monetário/R$,region,structure,trigger\n5,A,1,Compra,2024-01-02,1,1,1,0,0,r,s,g"

/-- A trade whose asset contains the cell delimiter. -/
def commaAssetTrade : Trade := { sampleTrade 7 none with asset := "a,b" }

/-- The ten decimal digit characters. -/
def digitChars : List Char := ['0', '1', '2', '3', '4', '5', '6', '7', '8', '9']

/-- The field names produced by translating the export header labels through
`importHeaderMapping` on decode. -/
def fieldNames : List String :=
  ["id", "asset", "tradeNumber", "side", "date", "lots", "entryPrice",
   "exitPrice", "points", "result", "region", "structure", "trigger"]

/-- The characters the numeric printers can emit. -/
def numChars : List Char := digitChars ++ ['-', '.', 'N', 'a']

/-- A text field survives the unquoted codec iff it contains no cell or line
delimiter and is invariant under trimming. -/
def cleanCell (s : String) : Bool :=
  s.data.all (fun c => !(c = ',' || c = '\r' || c = '\n')) &&
    decide (jsTrim s.data = s.data)

/-- A JS number value whose decimal printing re-parses exactly: NaN, or a
rational with a finite decimal expansion (every double is one). -/
def finiteNum : Option ℚ → Bool
  | none => true
  | some q => (decExp q.den).isSome

/-- The conditions under which one trade survives the CSV round trip. -/
def cleanTrade (t : Trade) : Bool :=
  cleanCell t.asset && cleanCell t.side && cleanCell t.date &&
  cleanCell t.region && cleanCell t.structure' && cleanCell t.trigger &&
  (t.notes == "") && finiteNum t.lots && finiteNum t.entryPrice &&
  finiteNum t.exitPrice && finiteNum t.points && finiteNum t.result

/-! ## Supporting lemmas -/

theorem digitVal_digitChar {d : Nat} (h : d < 10) : digitVal (digitChar d) = d := by
  match d with
  | 0 | 1 | 2 | 3 | 4 | 5 | 6 | 7 | 8 | 9 => rfl
  | n + 10 => omega

theorem isDigit_digitChar {d : Nat} (h : d < 10) : (digitChar d).isDigit = true := by
  match d with
  | 0 | 1 | 2 | 3 | 4 | 5 | 6 | 7 | 8 | 9 => rfl
  | n + 10 => omega

theorem natDigitsAux_congr :
    ∀ fuel₁ fuel₂ n, n < fuel₁ → n < fuel₂ → natDigitsAux fuel₁ n = natDigitsAux fuel₂ n := by
  intro fuel₁
  induction fuel₁ with
  | zero => omega
  | succ f ih =>
    intro fuel₂ n h1 h2
    match fuel₂, h2 with
    | f₂ + 1, _ =>
      simp only [natDigitsAux]
      split
      · rfl
      · rename_i hn
        rw [ih f₂ (n / 10) (by omega) (by omega)]

theorem natDigits_eq (n : Nat) :
    natDigits n = if n < 10 then [digitChar n]
      else natDigits (n / 10) ++ [digitChar (n % 10)] := by
  unfold natDigits
  conv_lhs => rw [natDigitsAux]
  split
  · rfl
  · rename_i hn
    rw [natDigitsAux_congr n (n / 10 + 1) (n / 10) (by omega) (by omega)]

theorem natDigits_ne_nil (n : Nat) : natDigits n ≠ [] := by
  rw [natDigits_eq]
  split
  · simp
  · simp

theorem isDigit_of_mem_natDigits {n : Nat} {c : Char} (h : c ∈ natDigits n) :
    c.isDigit = true := by
  induction n using Nat.strong_induction_on with
  | _ n ih =>
    rw [natDigits_eq] at h
    split at h
    · rw [List.mem_singleton] at h
      subst h
      exact isDigit_digitChar (by omega)
    · rw [List.mem_append] at h
      rcases h with h | h
      · exact ih (n / 10) (Nat.div_lt_self (by omega) (by omega)) h
      · rw [List.mem_singleton] at h
        subst h
        exact isDigit_digitChar (Nat.mod_lt _ (by omega))

theorem valOfDigits_cons (c : Char) (ds : List Char) :
    valOfDigits (c :: ds) = digitVal c * 10 ^ ds.length + valOfDigits ds := by
  have aux : ∀ (ds : List Char) (a : Nat),
      ds.foldl (fun a c => a * 10 + digitVal c) a =
        a * 10 ^ ds.length + ds.foldl (fun a c => a * 10 + digitVal c) 0 := by
    intro ds
    induction ds with
    | nil => intro a; simp
    | cons d ds ih =>
      intro a
      simp only [List.foldl_cons, List.length_cons]
      rw [ih (a * 10 + digitVal d), ih (0 * 10 + digitVal d)]
      ring
  simp only [valOfDigits, List.foldl_cons]
  rw [aux ds (0 * 10 + digitVal c)]
  ring

theorem valOfDigits_append (xs ys : List Char) :
    valOfDigits (xs ++ ys) = valOfDigits xs * 10 ^ ys.length + valOfDigits ys := by
  induction xs with
  | nil => simp [valOfDigits]
  | cons x xs ih =>
    rw [List.cons_append, valOfDigits_cons, valOfDigits_cons, ih]
    simp only [List.length_append]
    ring

theorem valOfDigits_natDigits (n : Nat) : valOfDigits (natDigits n) = n := by
  induction n using Nat.strong_induction_on with
  | _ n ih =>
    rw [natDigits_eq]
    split
    · rename_i h
      rw [show [digitChar n] = [] ++ [digitChar n] by rfl, valOfDigits_append]
      simp [valOfDigits, digitVal_digitChar h]
    · rename_i h
      rw [valOfDigits_append, ih (n / 10) (Nat.div_lt_self (by omega) (by omega))]
      have : valOfDigits [digitChar (n % 10)] = n % 10 := by
        simp [valOfDigits, digitVal_digitChar (Nat.mod_lt n (show 0 < 10 by omega))]
      rw [this]
      simp only [List.length_singleton, pow_one]
      omega

theorem natDigits_injective : Function.Injective natDigits := by
  intro m n h
  have := valOfDigits_natDigits m
  rw [h, valOfDigits_natDigits] at this
  omega

theorem natStr_injective : Function.Injective natStr := by
  intro m n h
  exact natDigits_injective (congrArg String.data h)

theorem natStr_ne_empty (n : Nat) : natStr n ≠ "" := by
  intro h
  exact natDigits_ne_nil n (congrArg String.data h)

theorem head_natStr_isDigit (n : Nat) :
    ∀ c ∈ (natStr n).data.head?, c.isDigit = true := by
  intro c hc
  apply isDigit_of_mem_natDigits (n := n)
  have : (natStr n).data = natDigits n := rfl
  rw [this] at hc
  exact List.mem_of_mem_head? hc

theorem intStr_injective : Function.Injective intStr := by
  intro m n h
  unfold intStr at h
  by_cases hm : m < 0 <;> by_cases hn : n < 0 <;> simp [hm, hn] at h
  · have := natStr_injective (String.ext_iff.mpr (by
      have := congrArg String.data h
      simpa using this))
    omega
  · exfalso
    have hd := congrArg String.data h
    have h1 : ('-' :: (natStr m.natAbs).data) = (natStr n.natAbs).data := by
      simpa using hd
    have : '-' ∈ ((natStr n.natAbs).data).head? := by
      rw [← h1]; rfl
    have := head_natStr_isDigit n.natAbs '-' this
    simp [Char.isDigit] at this
  · exfalso
    have hd := congrArg String.data h
    have h1 : (natStr m.natAbs).data = '-' :: (natStr n.natAbs).data := by
      simpa using hd
    have : '-' ∈ ((natStr m.natAbs).data).head? := by
      rw [h1]; rfl
    have := head_natStr_isDigit m.natAbs '-' this
    simp [Char.isDigit] at this
  · have := natStr_injective h
    omega

theorem intStr_ne_empty (n : Int) : intStr n ≠ "" := by
  unfold intStr
  split
  · intro h
    have := congrArg String.data h
    simp at this
  · exact natStr_ne_empty _

theorem digitChars_spec :
    ∀ c ∈ digitChars, c.isDigit = true ∧ c.isWhitespace = false ∧
      c ≠ ',' ∧ c ≠ '\r' ∧ c ≠ '\n' ∧ c ≠ '-' ∧ c ≠ '+' ∧ c ≠ '.' := by
  decide

theorem digitChar_mem_digitChars {d : Nat} (h : d < 10) : digitChar d ∈ digitChars := by
  match d with
  | 0 | 1 | 2 | 3 | 4 | 5 | 6 | 7 | 8 | 9 => decide
  | n + 10 => omega

theorem mem_digitChars_of_mem_natDigits {n : Nat} {c : Char} (h : c ∈ natDigits n) :
    c ∈ digitChars := by
  induction n using Nat.strong_induction_on with
  | _ n ih =>
    rw [natDigits_eq] at h
    split at h
    · rw [List.mem_singleton] at h
      subst h
      exact digitChar_mem_digitChars (by omega)
    · rw [List.mem_append] at h
      rcases h with h | h
      · exact ih (n / 10) (Nat.div_lt_self (by omega) (by omega)) h
      · rw [List.mem_singleton] at h
        subst h
        exact digitChar_mem_digitChars (Nat.mod_lt _ (by omega))

theorem dropWhile_eq_self_of_head (p : Char → Bool) (l : List Char)
    (h : ∀ x ∈ l.head?, p x = false) : l.dropWhile p = l := by
  cases l with
  | nil => rfl
  | cons c rest =>
    rw [List.dropWhile_cons, if_neg]
    simp [h c (by simp)]

theorem jsTrim_eq_self {l : List Char}
    (hh : ∀ x ∈ l.head?, x.isWhitespace = false)
    (hl : ∀ x ∈ l.getLast?, x.isWhitespace = false) : jsTrim l = l := by
  unfold jsTrim
  rw [dropWhile_eq_self_of_head _ _ hh,
    dropWhile_eq_self_of_head _ _ (by simpa [List.head?_reverse] using hl),
    List.reverse_reverse]

theorem mem_of_mem_getLast? {l : List Char} {x : Char} (h : x ∈ l.getLast?) : x ∈ l := by
  rcases List.mem_getLast?_eq_getLast h with ⟨hne, rfl⟩
  exact List.getLast_mem hne

theorem jsTrim_of_noWs {l : List Char} (h : ∀ x ∈ l, x.isWhitespace = false) :
    jsTrim l = l :=
  jsTrim_eq_self (fun x hx => h x (List.mem_of_mem_head? hx))
    (fun x hx => h x (mem_of_mem_getLast? hx))

theorem head_not_of_dropWhile_eq {p : Char → Bool} {m : List Char}
    (h : m.dropWhile p = m) : ∀ x ∈ m.head?, p x = false := by
  cases m with
  | nil => simp
  | cons c rest =>
    intro x hx
    rw [List.head?_cons, Option.mem_some_iff] at hx
    subst hx
    by_contra hpx
    rw [List.dropWhile_cons, if_pos (by simpa using hpx)] at h
    have := (List.dropWhile_sublist (l := rest) p).length_le
    rw [h] at this
    simp at this

theorem jsTrim_self_ends {l : List Char} (h : jsTrim l = l) :
    (∀ x ∈ l.head?, x.isWhitespace = false) ∧
    (∀ x ∈ l.getLast?, x.isWhitespace = false) := by
  have hlen1 : ((l.dropWhile (·.isWhitespace)).reverse.dropWhile
      (·.isWhitespace)).length ≤ (l.dropWhile (·.isWhitespace)).length := by
    calc ((l.dropWhile (·.isWhitespace)).reverse.dropWhile (·.isWhitespace)).length
        ≤ (l.dropWhile (·.isWhitespace)).reverse.length :=
          (List.dropWhile_sublist _).length_le
      _ = (l.dropWhile (·.isWhitespace)).length := List.length_reverse _
  have hlen2 : (l.dropWhile (·.isWhitespace)).length ≤ l.length :=
    (List.dropWhile_sublist _).length_le
  have hlen0 : (jsTrim l).length =
      ((l.dropWhile (·.isWhitespace)).reverse.dropWhile (·.isWhitespace)).length := by
    unfold jsTrim
    exact List.length_reverse _
  rw [h] at hlen0
  have hd : l.dropWhile (·.isWhitespace) = l :=
    (List.dropWhile_sublist _).eq_of_length (by omega)
  have hrev : (l.dropWhile (·.isWhitespace)).reverse.dropWhile (·.isWhitespace) =
      (l.dropWhile (·.isWhitespace)).reverse := by
    have : ((l.dropWhile (·.isWhitespace)).reverse.dropWhile (·.isWhitespace)).reverse = l :=
      h
    have := congrArg List.reverse this
    rw [List.reverse_reverse] at this
    rw [this, hd]
  refine ⟨head_not_of_dropWhile_eq hd, ?_⟩
  have := head_not_of_dropWhile_eq hrev
  rw [hd, List.head?_reverse] at this
  exact this

theorem splitOnChar_of_not_mem {sep : Char} {l : List Char} (h : sep ∉ l) :
    splitOnChar sep l = [l] := by
  induction l with
  | nil => rfl
  | cons c rest ih =>
    simp only [splitOnChar]
    rw [if_neg (by rintro rfl; exact h (List.mem_cons_self _ _)),
      ih (fun hm => h (List.mem_cons_of_mem _ hm))]
    rfl

theorem splitOnChar_append {sep : Char} {a rest : List Char} (h : sep ∉ a) :
    splitOnChar sep (a ++ sep :: rest) = a :: splitOnChar sep rest := by
  induction a with
  | nil =>
    simp [splitOnChar]
  | cons c a' ih =>
    simp only [List.cons_append, splitOnChar, List.append_eq]
    rw [if_neg (by rintro rfl; exact h (List.mem_cons_self _ _)),
      ih (fun hm => h (List.mem_cons_of_mem _ hm))]
    rfl

theorem splitSign_cons_ne {c : Char} (l : List Char) (h1 : c ≠ '-') (h2 : c ≠ '+') :
    splitSign (c :: l) = (false, c :: l) := by
  rw [splitSign.eq_def]
  split <;> simp_all

theorem splitLinesRN_cons {c : Char} (rest : List Char) (hn : c ≠ '\n') (hr : c ≠ '\r') :
    splitLinesRN (c :: rest) =
      (c :: (splitLinesRN rest).headD []) :: (splitLinesRN rest).tail := by
  rw [splitLinesRN.eq_def]
  split <;> simp_all

theorem splitLinesRN_nl (rest : List Char) :
    splitLinesRN ('\n' :: rest) = [] :: splitLinesRN rest := by
  rw [splitLinesRN.eq_def]
  split
  · simp_all
  · simp_all
  · simp_all
  · rename_i c' rest' harm2 harm3 heq
    injection heq with h1 h2
    exact absurd h1.symm harm3

theorem splitLinesRN_of_not_mem {l : List Char} (hn : '\n' ∉ l) (hr : '\r' ∉ l) :
    splitLinesRN l = [l] := by
  induction l with
  | nil => rfl
  | cons c rest ih =>
    rw [splitLinesRN_cons rest (by rintro rfl; exact hn (List.mem_cons_self _ _))
      (by rintro rfl; exact hr (List.mem_cons_self _ _))]
    rw [ih (fun hm => hn (List.mem_cons_of_mem _ hm))
      (fun hm => hr (List.mem_cons_of_mem _ hm))]
    rfl

theorem splitLinesRN_append {a rest : List Char} (hn : '\n' ∉ a) (hr : '\r' ∉ a) :
    splitLinesRN (a ++ '\n' :: rest) = a :: splitLinesRN rest := by
  induction a with
  | nil => exact splitLinesRN_nl rest
  | cons c a' ih =>
    rw [List.cons_append,
      splitLinesRN_cons _ (by rintro rfl; exact hn (List.mem_cons_self _ _))
        (by rintro rfl; exact hr (List.mem_cons_self _ _)),
      ih (fun hm => hn (List.mem_cons_of_mem _ hm))
        (fun hm => hr (List.mem_cons_of_mem _ hm))]
    rfl

theorem spanDigits_all {l : List Char} (h : ∀ c ∈ l, c.isDigit = true) :
    spanDigits l = (l, []) := by
  induction l with
  | nil => rfl
  | cons c rest ih =>
    simp only [spanDigits, h c (List.mem_cons_self _ _), if_pos,
      ih (fun x hx => h x (List.mem_cons_of_mem _ hx))]

theorem spanDigits_append {a r : List Char} {c : Char}
    (ha : ∀ x ∈ a, x.isDigit = true) (hc : c.isDigit = false) :
    spanDigits (a ++ c :: r) = (a, c :: r) := by
  induction a with
  | nil =>
    simp only [List.nil_append, spanDigits, hc]
    rw [if_neg (by simp [hc])]
  | cons x a' ih =>
    have ih' := ih (fun y hy => ha y (List.mem_cons_of_mem _ hy))
    simp [List.cons_append, spanDigits, ha x (List.mem_cons_self _ _), List.append_eq, ih']

theorem natStr_all_digitChars (n : Nat) : ∀ c ∈ (natStr n).data, c ∈ digitChars :=
  fun _ hc => mem_digitChars_of_mem_natDigits hc

theorem jsParseInt_natStr (n : Nat) : jsParseInt (natStr n) = some (n : Int) := by
  obtain ⟨c, cs, hl⟩ := List.exists_cons_of_ne_nil (natDigits_ne_nil n)
  have hl' : (natStr n).data = c :: cs := hl
  have hc : c ∈ digitChars := natStr_all_digitChars n c (hl' ▸ List.mem_cons_self c cs)
  have hws : c.isWhitespace = false := (digitChars_spec c hc).2.1
  have hspan : spanDigits (c :: cs) = (c :: cs, []) := by
    rw [← hl']
    exact spanDigits_all (fun x hx => (digitChars_spec x (natStr_all_digitChars n x hx)).1)
  have hval : valOfDigits (c :: cs) = n := by
    rw [← hl]
    exact valOfDigits_natDigits n
  simp only [jsParseInt, hl', List.dropWhile_cons, hws, Bool.false_eq_true, if_false,
    splitSign_cons_ne _ (digitChars_spec c hc).2.2.2.2.2.1
      (digitChars_spec c hc).2.2.2.2.2.2.1,
    hspan, List.isEmpty_cons, hval]

theorem jsParseInt_intStr (n : Int) : jsParseInt (intStr n) = some n := by
  by_cases hneg : n < 0
  · rw [intStr, if_pos hneg]
    have hdata : ("-" ++ natStr n.natAbs).data = '-' :: natDigits n.natAbs := by
      rw [String.data_append]
      rfl
    have hdw : ('-' :: natDigits n.natAbs).dropWhile (fun c => c.isWhitespace) =
        '-' :: natDigits n.natAbs := by
      rw [List.dropWhile_cons, if_neg (by decide)]
    have hsign : splitSign ('-' :: natDigits n.natAbs) = (true, natDigits n.natAbs) := rfl
    have hspan : spanDigits (natDigits n.natAbs) = (natDigits n.natAbs, []) :=
      spanDigits_all
        (fun x hx => (digitChars_spec x (mem_digitChars_of_mem_natDigits hx)).1)
    have hne : (natDigits n.natAbs).isEmpty = false := by
      obtain ⟨c, cs, hl⟩ := List.exists_cons_of_ne_nil (natDigits_ne_nil n.natAbs)
      rw [hl]
      rfl
    simp only [jsParseInt, hdata, hdw, hsign, hspan, hne, Bool.false_eq_true, if_false,
      valOfDigits_natDigits, if_true, Option.some.injEq]
    omega
  · rw [intStr, if_neg hneg]
    rw [jsParseInt_natStr]
    congr 1
    omega

theorem valOfDigits_replicate_zero (z : Nat) (ds : List Char) :
    valOfDigits (List.replicate z '0' ++ ds) = valOfDigits ds := by
  rw [valOfDigits_append]
  have h0 : valOfDigits (List.replicate z '0') = 0 := by
    induction z with
    | zero => rfl
    | succ z ih =>
      rw [List.replicate_succ, valOfDigits_cons, ih]
      simp [show digitVal '0' = 0 by decide]
  rw [h0]
  simp

theorem natDigits_length_le {v k : Nat} (hk : 1 ≤ k) (hv : v < 10 ^ k) :
    (natDigits v).length ≤ k := by
  induction k generalizing v with
  | zero => omega
  | succ k ih =>
    rw [natDigits_eq]
    split
    · simp
    · rename_i h10
      rw [List.length_append, List.length_singleton]
      have hv' : v / 10 < 10 ^ k := by
        rw [pow_succ] at hv
        omega
      rcases Nat.eq_zero_or_pos k with h0 | hpos
      · subst h0
        rw [pow_zero] at hv'
        omega
      · have := ih hpos hv'
        omega

theorem jsFloatVal_false (I F k : Nat) :
    jsFloatVal false I F k 0 = (I : ℚ) + (F : ℚ) / 10 ^ k := by
  simp [jsFloatVal]

theorem jsFloatVal_true (I F k : Nat) :
    jsFloatVal true I F k 0 = -((I : ℚ) + (F : ℚ) / 10 ^ k) := by
  simp [jsFloatVal]

theorem parse_unsigned_int (I : Nat) :
    jsParseFloat (natStr I) = some (jsFloatVal false I 0 0 0) := by
  obtain ⟨c, cs, hl⟩ := List.exists_cons_of_ne_nil (natDigits_ne_nil I)
  have hl' : (natStr I).data = c :: cs := hl
  have hc : c ∈ digitChars := natStr_all_digitChars I c (hl' ▸ List.mem_cons_self c cs)
  have hspan : spanDigits (c :: cs) = (c :: cs, []) := by
    rw [← hl']
    exact spanDigits_all (fun x hx => (digitChars_spec x (natStr_all_digitChars I x hx)).1)
  have hval : valOfDigits (c :: cs) = I := by
    rw [← hl]
    exact valOfDigits_natDigits I
  simp only [jsParseFloat, hl', List.dropWhile_cons, (digitChars_spec c hc).2.1,
    Bool.false_eq_true, if_false,
    splitSign_cons_ne _ (digitChars_spec c hc).2.2.2.2.2.1
      (digitChars_spec c hc).2.2.2.2.2.2.1,
    hspan, List.isEmpty_cons, hval]
  rfl

theorem parse_negated_int (I : Nat) :
    jsParseFloat ⟨'-' :: natDigits I⟩ = some (jsFloatVal true I 0 0 0) := by
  have hdw : ('-' :: natDigits I).dropWhile (fun c => c.isWhitespace) =
      '-' :: natDigits I := by
    rw [List.dropWhile_cons, if_neg (by decide)]
  have hsign : splitSign ('-' :: natDigits I) = (true, natDigits I) := rfl
  have hspan : spanDigits (natDigits I) = (natDigits I, []) := spanDigits_all
    (fun x hx => (digitChars_spec x (mem_digitChars_of_mem_natDigits hx)).1)
  have hne : (natDigits I).isEmpty = false := by
    obtain ⟨c, cs, hl⟩ := List.exists_cons_of_ne_nil (natDigits_ne_nil I)
    rw [hl]
    rfl
  simp only [jsParseFloat, hdw, hsign, hspan, hne, Bool.false_eq_true, if_false,
    valOfDigits_natDigits]
  rfl

theorem parse_unsigned_decimal (I : Nat) (pad : List Char)
    (hpad : ∀ c ∈ pad, c.isDigit = true) :
    jsParseFloat ⟨natDigits I ++ '.' :: pad⟩ =
      some (jsFloatVal false I (valOfDigits pad) pad.length 0) := by
  obtain ⟨c, cs, hl⟩ := List.exists_cons_of_ne_nil (natDigits_ne_nil I)
  have hcmem : c ∈ digitChars := mem_digitChars_of_mem_natDigits
    (hl ▸ List.mem_cons_self c cs)
  have hspan1 : spanDigits (natDigits I ++ '.' :: pad) = (natDigits I, '.' :: pad) :=
    spanDigits_append
      (fun x hx => (digitChars_spec x (mem_digitChars_of_mem_natDigits hx)).1)
      (by rfl)
  have hspan2 : spanDigits pad = (pad, []) := spanDigits_all hpad
  have hdw : (natDigits I ++ '.' :: pad).dropWhile (fun c => c.isWhitespace) =
      natDigits I ++ '.' :: pad := by
    rw [hl, List.cons_append, List.dropWhile_cons,
      if_neg (by simp [(digitChars_spec c hcmem).2.1])]
  have hsign : splitSign (natDigits I ++ '.' :: pad) = (false, natDigits I ++ '.' :: pad) := by
    rw [hl, List.cons_append]
    exact splitSign_cons_ne _ (digitChars_spec c hcmem).2.2.2.2.2.1
      (digitChars_spec c hcmem).2.2.2.2.2.2.1
  have hne : (natDigits I).isEmpty = false := by
    rw [hl]
    rfl
  simp only [jsParseFloat, hdw, hsign, hspan1, hspan2, hne, Bool.false_and,
    Bool.false_eq_true, if_false, valOfDigits_natDigits]
  rfl

theorem parse_negated_decimal (I : Nat) (pad : List Char)
    (hpad : ∀ c ∈ pad, c.isDigit = true) :
    jsParseFloat ⟨'-' :: (natDigits I ++ '.' :: pad)⟩ =
      some (jsFloatVal true I (valOfDigits pad) pad.length 0) := by
  have hspan1 : spanDigits (natDigits I ++ '.' :: pad) = (natDigits I, '.' :: pad) :=
    spanDigits_append
      (fun x hx => (digitChars_spec x (mem_digitChars_of_mem_natDigits hx)).1)
      (by rfl)
  have hspan2 : spanDigits pad = (pad, []) := spanDigits_all hpad
  have hne : (natDigits I).isEmpty = false := by
    obtain ⟨c, cs, hl⟩ := List.exists_cons_of_ne_nil (natDigits_ne_nil I)
    rw [hl]
    rfl
  have hdw : ('-' :: (natDigits I ++ '.' :: pad)).dropWhile (fun c => c.isWhitespace) =
      '-' :: (natDigits I ++ '.' :: pad) := by
    rw [List.dropWhile_cons, if_neg (by decide)]
  have hsign : splitSign ('-' :: (natDigits I ++ '.' :: pad)) =
      (true, natDigits I ++ '.' :: pad) := rfl
  simp only [jsParseFloat, hdw, hsign, hspan1, hspan2, hne, Bool.false_and,
    Bool.false_eq_true, if_false, valOfDigits_natDigits]
  rfl

theorem jsParseFloat_mk_data {s : String} {l : List Char} (h : s.data = l) :
    jsParseFloat s = jsParseFloat ⟨l⟩ := by
  cases s
  cases h
  rfl

theorem decExp_dvd {den k : Nat} (h : decExp den = some k) : den ∣ 10 ^ k := by
  have := List.find?_some h
  exact Nat.dvd_of_mod_eq_zero (by simpa using this)

theorem abs_val_eq {q : ℚ} {k : Nat} (hdvd : q.den ∣ 10 ^ k) :
    ((q.num.natAbs * (10 ^ k / q.den) : ℕ) : ℚ) / (10 : ℚ) ^ k = |q| := by
  have hcd : 10 ^ k / q.den * q.den = 10 ^ k := Nat.div_mul_cancel hdvd
  have hden0 : (0 : ℚ) < (q.den : ℚ) := by
    exact_mod_cast q.den_pos
  have hc0 : 0 < 10 ^ k / q.den :=
    Nat.div_pos (Nat.le_of_dvd (pow_pos (by omega) k) hdvd) q.den_pos
  have h10 : ((10 : ℚ)) ^ k = ((10 ^ k / q.den : ℕ) : ℚ) * (q.den : ℚ) := by
    have h1 := congrArg (fun x : ℕ => (x : ℚ)) hcd
    push_cast at h1
    exact h1.symm
  rw [h10]
  push_cast
  rw [mul_comm ((q.num.natAbs : ℚ)) (((10 ^ k / q.den : ℕ)) : ℚ),
    mul_div_mul_left _ _ (ne_of_gt (show (0 : ℚ) < ((10 ^ k / q.den : ℕ) : ℚ) by
      exact_mod_cast hc0))]
  rw [show ((q.num.natAbs : ℚ)) = |(q.num : ℚ)| from by rw [Int.cast_natAbs, Int.cast_abs]]
  conv_rhs => rw [← Rat.num_div_den q]
  rw [abs_div, abs_of_pos hden0]

theorem jsParseFloat_ratStr {q : ℚ} {k : Nat} (h : decExp q.den = some k) :
    jsParseFloat (ratStr q) = some q := by
  have hdvd := decExp_dvd h
  have habs := abs_val_eq hdvd
  have hqneg : q.num < 0 → q < 0 := by
    intro hn
    by_contra hq
    have : (0 : ℤ) ≤ q.num := Rat.num_nonneg.mpr (by linarith [not_lt.mp hq])
    omega
  have hqpos : ¬ q.num < 0 → 0 ≤ q := fun hn => Rat.num_nonneg.mp (by omega)
  rcases Nat.eq_zero_or_pos k with hk0 | hkpos
  · subst hk0
    have hden1 : q.den = 1 := Nat.dvd_one.mp (by rwa [pow_zero] at hdvd)
    have hm1 : q.num.natAbs * (10 ^ 0 / q.den) = q.num.natAbs := by
      rw [hden1]
      norm_num
    have habs' : ((q.num.natAbs : ℕ) : ℚ) = |q| := by
      rw [← hm1]
      simpa using habs
    simp only [ratStr, h, reduceIte, hm1]
    by_cases hneg : q.num < 0
    · rw [if_pos hneg,
        jsParseFloat_mk_data (show ("-" ++ natStr q.num.natAbs).data =
          '-' :: natDigits q.num.natAbs by rw [String.data_append]; rfl),
        parse_negated_int, jsFloatVal_true]
      congr 1
      rw [show ((q.num.natAbs : ℚ) + ((0 : ℕ) : ℚ) / 10 ^ 0) = |q| by
        rw [← habs']; simp]
      rw [abs_of_neg (hqneg hneg)]
      ring
    · rw [if_neg hneg, parse_unsigned_int, jsFloatVal_false]
      congr 1
      rw [show ((q.num.natAbs : ℚ) + ((0 : ℕ) : ℚ) / 10 ^ 0) = |q| by
        rw [← habs']; simp]
      exact abs_of_nonneg (hqpos hneg)
  · have hkne : ¬ (k = 0) := by omega
    set m : ℕ := q.num.natAbs * (10 ^ k / q.den) with hmdef
    have hfraclt : m % 10 ^ k < 10 ^ k := Nat.mod_lt _ (pow_pos (by omega) k)
    have hlen : (natDigits (m % 10 ^ k)).length ≤ k :=
      natDigits_length_le hkpos hfraclt
    set pad : List Char :=
      List.replicate (k - (natDigits (m % 10 ^ k)).length) '0' ++
        natDigits (m % 10 ^ k) with hpaddef
    have hpadall : ∀ c ∈ pad, c.isDigit = true := by
      intro c hc
      rw [hpaddef, List.mem_append] at hc
      rcases hc with hc | hc
      · rw [List.eq_of_mem_replicate hc]
        decide
      · exact (digitChars_spec c (mem_digitChars_of_mem_natDigits hc)).1
    have hpadlen : pad.length = k := by
      rw [hpaddef, List.length_append, List.length_replicate]
      omega
    have hpadval : valOfDigits pad = m % 10 ^ k := by
      rw [hpaddef, valOfDigits_replicate_zero, valOfDigits_natDigits]
    have harith : ((m / 10 ^ k : ℕ) : ℚ) + ((m % 10 ^ k : ℕ) : ℚ) / (10 : ℚ) ^ k =
        ((m : ℕ) : ℚ) / (10 : ℚ) ^ k := by
      have hdm : 10 ^ k * (m / 10 ^ k) + m % 10 ^ k = m := Nat.div_add_mod m (10 ^ k)
      have h100 : ((10 : ℚ)) ^ k ≠ 0 := by positivity
      field_simp
      rw [show ((10 : ℚ)) ^ k = ((10 ^ k : ℕ) : ℚ) by push_cast; ring]
      rw [mul_comm]
      exact_mod_cast congrArg (fun x : ℕ => (x : ℚ)) hdm
    have hstrdata : (natStr (m / 10 ^ k) ++ "." ++ (⟨pad⟩ : String)).data =
        natDigits (m / 10 ^ k) ++ '.' :: pad := by
      rw [String.data_append, String.data_append]
      simp [natStr]
    simp only [ratStr, h, hkne, reduceIte, ← hmdef, ← hpaddef]
    by_cases hneg : q.num < 0
    · rw [if_pos hneg,
        jsParseFloat_mk_data (show ("-" ++ (natStr (m / 10 ^ k) ++ "." ++
            (⟨pad⟩ : String))).data =
          '-' :: (natDigits (m / 10 ^ k) ++ '.' :: pad) by
            rw [String.data_append, hstrdata]; rfl),
        parse_negated_decimal _ _ hpadall, jsFloatVal_true, hpadval, hpadlen]
      congr 1
      rw [harith, habs, abs_of_neg (hqneg hneg)]
      ring
    · rw [if_neg hneg,
        jsParseFloat_mk_data hstrdata,
        parse_unsigned_decimal _ _ hpadall, jsFloatVal_false, hpadval, hpadlen]
      congr 1
      rw [harith, habs]
      exact abs_of_nonneg (hqpos hneg)

theorem numChars_spec :
    ∀ c ∈ numChars, c ≠ ',' ∧ c ≠ '\r' ∧ c ≠ '\n' ∧ c.isWhitespace = false := by
  decide

theorem intStr_chars (n : Int) : ∀ c ∈ (intStr n).data, c ∈ numChars := by
  intro c hc
  unfold intStr at hc
  split at hc
  · rw [String.data_append] at hc
    rcases List.mem_append.mp hc with hc | hc
    · rw [show ("-" : String).data = ['-'] from rfl] at hc
      rw [List.mem_singleton] at hc
      subst hc
      decide
    · exact List.mem_append_left _ (mem_digitChars_of_mem_natDigits hc)
  · exact List.mem_append_left _ (mem_digitChars_of_mem_natDigits hc)

theorem ratStr_chars {q : ℚ} {k : Nat} (h : decExp q.den = some k) :
    ∀ c ∈ (ratStr q).data, c ∈ numChars := by
  intro c hc
  simp only [ratStr, h] at hc
  have hcore : ∀ s : String,
      (∀ x ∈ s.data, x ∈ numChars) → c ∈ ((if q.num < 0 then "-" ++ s else s) : String).data →
      c ∈ numChars := by
    intro s hs hmem
    split at hmem
    · rw [String.data_append] at hmem
      rcases List.mem_append.mp hmem with hm | hm
      · rw [show ("-" : String).data = ['-'] from rfl] at hm
        rw [List.mem_singleton] at hm
        subst hm
        decide
      · exact hs c hm
    · exact hs c hmem
  refine hcore _ ?_ hc
  intro x hx
  split at hx
  · exact List.mem_append_left _ (mem_digitChars_of_mem_natDigits hx)
  · rw [String.data_append, String.data_append] at hx
    rcases List.mem_append.mp hx with hx | hx
    · rcases List.mem_append.mp hx with hx | hx
      · exact List.mem_append_left _ (mem_digitChars_of_mem_natDigits hx)
      · rw [show ("." : String).data = ['.'] from rfl] at hx
        rw [List.mem_singleton] at hx
        subst hx
        decide
    · rcases List.mem_append.mp hx with hx | hx
      · rw [List.eq_of_mem_replicate hx]
        decide
      · exact List.mem_append_left _ (mem_digitChars_of_mem_natDigits hx)

theorem jsNumStr_chars {v : Option ℚ} (h : finiteNum v = true) :
    ∀ c ∈ (jsNumStr v).data, c ∈ numChars := by
  cases v with
  | none =>
    intro c hc
    rw [show (jsNumStr none).data = ['N', 'a', 'N'] from rfl] at hc
    simp only [List.mem_cons, List.not_mem_nil, or_false] at hc
    rcases hc with rfl | rfl | rfl <;> decide
  | some q =>
    obtain ⟨k, hk⟩ := Option.isSome_iff_exists.mp (by simpa [finiteNum] using h)
    exact ratStr_chars hk

theorem jsIntOptStr_chars (v : Option Int) : ∀ c ∈ (jsIntOptStr v).data, c ∈ numChars := by
  cases v with
  | none =>
    intro c hc
    rw [show (jsIntOptStr none).data = ['N', 'a', 'N'] from rfl] at hc
    simp only [List.mem_cons, List.not_mem_nil, or_false] at hc
    rcases hc with rfl | rfl | rfl <;> decide
  | some n => exact intStr_chars n

/-- A numChars-only string is delimiter-free and trim-invariant. -/
theorem numStr_cell_facts {s : String} (hchars : ∀ c ∈ s.data, c ∈ numChars) :
    (',' ∉ s.data ∧ '\n' ∉ s.data ∧ '\r' ∉ s.data) ∧ jsTrim s.data = s.data := by
  refine ⟨⟨fun hm => ?_, fun hm => ?_, fun hm => ?_⟩, ?_⟩
  · exact absurd rfl (numChars_spec _ (hchars _ hm)).1
  · exact absurd rfl (numChars_spec _ (hchars _ hm)).2.2.1
  · exact absurd rfl (numChars_spec _ (hchars _ hm)).2.1
  · exact jsTrim_of_noWs (fun x hx => (numChars_spec x (hchars x hx)).2.2.2)

theorem jsTrimStr_eq_self {s : String} (h : jsTrim s.data = s.data) : jsTrimStr s = s := by
  cases s with
  | mk l =>
    unfold jsTrimStr
    rw [show (String.mk l).data = l from rfl] at h
    rw [h]

theorem splitOnChar_joinSep {sep : Char} {sepStr : String} (hsep : sepStr.data = [sep])
    (cells : List String) (hne : cells ≠ [])
    (h : ∀ s ∈ cells, sep ∉ s.data) :
    splitOnChar sep (joinSep sepStr cells).data = cells.map String.data := by
  induction cells with
  | nil => exact absurd rfl hne
  | cons x cs ih =>
    cases cs with
    | nil =>
      show splitOnChar sep x.data = [x.data]
      exact splitOnChar_of_not_mem (h x (List.mem_cons_self _ _))
    | cons y ys =>
      have hdata : (x ++ sepStr ++ joinSep sepStr (y :: ys)).data =
          x.data ++ sep :: (joinSep sepStr (y :: ys)).data := by
        rw [String.data_append, String.data_append, hsep]
        simp
      show splitOnChar sep (x ++ sepStr ++ joinSep sepStr (y :: ys)).data = _
      rw [hdata, splitOnChar_append (h x (List.mem_cons_self _ _)),
        ih (by simp) (fun s hs => h s (List.mem_cons_of_mem _ hs))]
      rfl

theorem splitLinesRN_joinSep (rows : List String) (hne : rows ≠ [])
    (h : ∀ s ∈ rows, '\n' ∉ s.data ∧ '\r' ∉ s.data) :
    splitLinesRN (joinSep "\n" rows).data = rows.map String.data := by
  induction rows with
  | nil => exact absurd rfl hne
  | cons x cs ih =>
    cases cs with
    | nil =>
      show splitLinesRN x.data = [x.data]
      exact splitLinesRN_of_not_mem (h x (List.mem_cons_self _ _)).1
        (h x (List.mem_cons_self _ _)).2
    | cons y ys =>
      have hdata : (x ++ "\n" ++ joinSep "\n" (y :: ys)).data =
          x.data ++ '\n' :: (joinSep "\n" (y :: ys)).data := by
        rw [String.data_append, String.data_append]
        simp
      show splitLinesRN (x ++ "\n" ++ joinSep "\n" (y :: ys)).data = _
      rw [hdata, splitLinesRN_append (h x (List.mem_cons_self _ _)).1
          (h x (List.mem_cons_self _ _)).2,
        ih (by simp) (fun s hs => h s (List.mem_cons_of_mem _ hs))]
      rfl

theorem mem_joinSep_data {sepStr : String} {sep : Char} (hsep : sepStr.data = [sep])
    {cells : List String} {c : Char} (hc : c ∈ (joinSep sepStr cells).data) :
    c = sep ∨ ∃ s ∈ cells, c ∈ s.data := by
  induction cells with
  | nil => simp [joinSep] at hc
  | cons x cs ih =>
    cases cs with
    | nil =>
      right
      exact ⟨x, List.mem_cons_self _ _, hc⟩
    | cons y ys =>
      rw [show joinSep sepStr (x :: y :: ys) = x ++ sepStr ++ joinSep sepStr (y :: ys)
          from rfl, String.data_append, String.data_append, hsep] at hc
      rcases List.mem_append.mp hc with hc | hc
      · rcases List.mem_append.mp hc with hc | hc
        · exact Or.inr ⟨x, List.mem_cons_self _ _, hc⟩
        · rw [List.mem_singleton] at hc
          exact Or.inl hc
      · rcases ih hc with hc | ⟨s, hs, hcs⟩
        · exact Or.inl hc
        · exact Or.inr ⟨s, List.mem_cons_of_mem _ hs, hcs⟩

theorem joinComma_last {cells : List String}
    (hcell : ∀ s ∈ cells, ∀ c ∈ s.data.getLast?, c.isWhitespace = false) :
    ∀ c ∈ (joinSep "," cells).data.getLast?, c.isWhitespace = false := by
  induction cells with
  | nil => simp [joinSep]
  | cons x cs ih =>
    cases cs with
    | nil => exact hcell x (List.mem_cons_self _ _)
    | cons y ys =>
      intro c hc
      rw [show joinSep "," (x :: y :: ys) = x ++ "," ++ joinSep "," (y :: ys)
          from rfl, String.data_append, String.data_append,
        show ("," : String).data = [','] from rfl, List.append_assoc,
        List.getLast?_append] at hc
      have hne2 : ([','] ++ (joinSep "," (y :: ys)).data).getLast?.isSome := by
        cases hgl : ([','] ++ (joinSep "," (y :: ys)).data).getLast? with
        | none =>
          rw [List.getLast?_eq_none_iff] at hgl
          simp at hgl
        | some z => rfl
      rw [Option.or_of_isSome hne2] at hc
      rw [List.singleton_append] at hc
      cases hJ : (joinSep "," (y :: ys)).data with
      | nil =>
        rw [hJ] at hc
        rw [show ([','] : List Char).getLast? = some ',' from rfl] at hc
        rw [Option.mem_some_iff] at hc
        subst hc
        decide
      | cons z zs =>
        rw [hJ, List.getLast?_cons_cons, ← hJ] at hc
        exact ih (fun s hs => hcell s (List.mem_cons_of_mem _ hs)) c hc

theorem joinNl_facts {rows : List String} (hne : rows ≠ [])
    (hrow : ∀ s ∈ rows, s.data ≠ [] ∧ ∀ c ∈ s.data.getLast?, c.isWhitespace = false) :
    (joinSep "\n" rows).data ≠ [] ∧
    ∀ c ∈ (joinSep "\n" rows).data.getLast?, c.isWhitespace = false := by
  induction rows with
  | nil => exact absurd rfl hne
  | cons x cs ih =>
    cases cs with
    | nil => exact hrow x (List.mem_cons_self _ _)
    | cons y ys =>
      have ihr := ih (by simp) (fun s hs => hrow s (List.mem_cons_of_mem _ hs))
      have hdata : (joinSep "\n" (x :: y :: ys)).data =
          x.data ++ '\n' :: (joinSep "\n" (y :: ys)).data := by
        rw [show joinSep "\n" (x :: y :: ys) = x ++ "\n" ++ joinSep "\n" (y :: ys)
            from rfl, String.data_append, String.data_append]
        simp
      constructor
      · rw [hdata]
        simp
      · intro c hc
        rw [hdata, List.getLast?_append] at hc
        have hne2 : ('\n' :: (joinSep "\n" (y :: ys)).data).getLast?.isSome := by
          cases hgl : ('\n' :: (joinSep "\n" (y :: ys)).data).getLast? with
          | none =>
            rw [List.getLast?_eq_none_iff] at hgl
            simp at hgl
          | some z => rfl
        rw [Option.or_of_isSome hne2] at hc
        cases hJ : (joinSep "\n" (y :: ys)).data with
        | nil => exact absurd hJ ihr.1
        | cons z zs =>
          rw [hJ, List.getLast?_cons_cons, ← hJ] at hc
          exact ihr.2 c hc

theorem cleanCell_facts {s : String} (h : cleanCell s = true) :
    (',' ∉ s.data ∧ '\n' ∉ s.data ∧ '\r' ∉ s.data) ∧ jsTrim s.data = s.data := by
  simp only [cleanCell, Bool.and_eq_true, List.all_eq_true, decide_eq_true_eq] at h
  obtain ⟨hall, htrim⟩ := h
  refine ⟨⟨fun hm => ?_, fun hm => ?_, fun hm => ?_⟩, htrim⟩
  · have := hall _ hm
    simp at this
  · have := hall _ hm
    simp at this
  · have := hall _ hm
    simp at this

theorem jsParseInt_NaN : jsParseInt "NaN" = none := by decide

theorem jsParseFloat_NaN : jsParseFloat "NaN" = none := by decide

theorem jsParseInt_jsIntOptStr (v : Option Int) : jsParseInt (jsIntOptStr v) = v := by
  cases v with
  | none => exact jsParseInt_NaN
  | some n => exact jsParseInt_intStr n

theorem jsParseFloat_jsNumStr {v : Option ℚ} (h : finiteNum v = true) :
    jsParseFloat (jsNumStr v) = v := by
  cases v with
  | none => exact jsParseFloat_NaN
  | some q =>
    obtain ⟨k, hk⟩ := Option.isSome_iff_exists.mp (by simpa [finiteNum] using h)
    exact jsParseFloat_ratStr hk

theorem filterMap_eq_self {α : Type} {f : α → Option α} {l : List α}
    (h : ∀ t ∈ l, f t = some t) : l.filterMap f = l := by
  induction l with
  | nil => rfl
  | cons x xs ih =>
    rw [List.filterMap_cons, h x (List.mem_cons_self _ _),
      ih (fun t ht => h t (List.mem_cons_of_mem _ ht))]

theorem fieldLookup_vals (v0 v1 v2 v3 v4 v5 v6 v7 v8 v9 v10 v11 v12 : String) :
    fieldLookup fieldNames [v0, v1, v2, v3, v4, v5, v6, v7, v8, v9, v10, v11, v12]
        "id" = some (jsTrimStr v0) ∧
    fieldLookup fieldNames [v0, v1, v2, v3, v4, v5, v6, v7, v8, v9, v10, v11, v12]
        "asset" = some (jsTrimStr v1) ∧
    fieldLookup fieldNames [v0, v1, v2, v3, v4, v5, v6, v7, v8, v9, v10, v11, v12]
        "tradeNumber" = some (jsTrimStr v2) ∧
    fieldLookup fieldNames [v0, v1, v2, v3, v4, v5, v6, v7, v8, v9, v10, v11, v12]
        "side" = some (jsTrimStr v3) ∧
    fieldLookup fieldNames [v0, v1, v2, v3, v4, v5, v6, v7, v8, v9, v10, v11, v12]
        "date" = some (jsTrimStr v4) ∧
    fieldLookup fieldNames [v0, v1, v2, v3, v4, v5, v6, v7, v8, v9, v10, v11, v12]
        "lots" = some (jsTrimStr v5) ∧
    fieldLookup fieldNames [v0, v1, v2, v3, v4, v5, v6, v7, v8, v9, v10, v11, v12]
        "entryPrice" = some (jsTrimStr v6) ∧
    fieldLookup fieldNames [v0, v1, v2, v3, v4, v5, v6, v7, v8, v9, v10, v11, v12]
        "exitPrice" = some (jsTrimStr v7) ∧
    fieldLookup fieldNames [v0, v1, v2, v3, v4, v5, v6, v7, v8, v9, v10, v11, v12]
        "points" = some (jsTrimStr v8) ∧
    fieldLookup fieldNames [v0, v1, v2, v3, v4, v5, v6, v7, v8, v9, v10, v11, v12]
        "result" = some (jsTrimStr v9) ∧
    fieldLookup fieldNames [v0, v1, v2, v3, v4, v5, v6, v7, v8, v9, v10, v11, v12]
        "region" = some (jsTrimStr v10) ∧
    fieldLookup fieldNames [v0, v1, v2, v3, v4, v5, v6, v7, v8, v9, v10, v11, v12]
        "structure" = some (jsTrimStr v11) ∧
    fieldLookup fieldNames [v0, v1, v2, v3, v4, v5, v6, v7, v8, v9, v10, v11, v12]
        "trigger" = some (jsTrimStr v12) :=
  ⟨rfl, rfl, rfl, rfl, rfl, rfl, rfl, rfl, rfl, rfl, rfl, rfl, rfl⟩

theorem exportRowCells_facts {t : Trade} (h : cleanTrade t = true) :
    ∀ s ∈ exportRowCells t,
      (',' ∉ s.data ∧ '\n' ∉ s.data ∧ '\r' ∉ s.data) ∧ jsTrim s.data = s.data := by
  simp only [cleanTrade, Bool.and_eq_true, beq_iff_eq] at h
  obtain ⟨⟨⟨⟨⟨⟨⟨⟨⟨⟨⟨h1, h2⟩, h3⟩, h4⟩, h5⟩, h6⟩, h7⟩, h8⟩, h9⟩, h10⟩, h11⟩, h12⟩ := h
  intro s hs
  simp only [exportRowCells, List.mem_cons, List.not_mem_nil, or_false] at hs
  rcases hs with rfl | rfl | rfl | rfl | rfl | rfl | rfl | rfl | rfl | rfl | rfl | rfl | rfl
  · exact numStr_cell_facts (intStr_chars t.id)
  · exact cleanCell_facts h1
  · exact numStr_cell_facts (jsIntOptStr_chars t.tradeNumber)
  · exact cleanCell_facts h2
  · exact cleanCell_facts h3
  · exact numStr_cell_facts (jsNumStr_chars h8)
  · exact numStr_cell_facts (jsNumStr_chars h9)
  · exact numStr_cell_facts (jsNumStr_chars h10)
  · exact numStr_cell_facts (jsNumStr_chars h11)
  · exact numStr_cell_facts (jsNumStr_chars h12)
  · exact cleanCell_facts h4
  · exact cleanCell_facts h5
  · exact cleanCell_facts h6

theorem rowStr_no_nl {t : Trade} (h : cleanTrade t = true) :
    '\n' ∉ (joinSep "," (exportRowCells t)).data ∧
    '\r' ∉ (joinSep "," (exportRowCells t)).data := by
  constructor <;> intro hm
  · rcases mem_joinSep_data rfl hm with hc | ⟨s, hs, hcs⟩
    · exact absurd hc (by decide)
    · exact (exportRowCells_facts h s hs).1.2.1 hcs
  · rcases mem_joinSep_data rfl hm with hc | ⟨s, hs, hcs⟩
    · exact absurd hc (by decide)
    · exact (exportRowCells_facts h s hs).1.2.2 hcs

theorem rowStr_ne_nil (t : Trade) : (joinSep "," (exportRowCells t)).data ≠ [] := by
  intro heq
  rw [show (joinSep "," (exportRowCells t)).data =
      (intStr t.id).data ++ ',' :: (joinSep "," (exportRowCells t).tail).data from by
    rw [show joinSep "," (exportRowCells t) = intStr t.id ++ "," ++
        joinSep "," (exportRowCells t).tail from rfl, String.data_append,
      String.data_append]
    simp] at heq
  simp at heq

theorem rowStr_last_ws {t : Trade} (h : cleanTrade t = true) :
    ∀ c ∈ (joinSep "," (exportRowCells t)).data.getLast?, c.isWhitespace = false :=
  joinComma_last (fun s hs => (jsTrim_self_ends (exportRowCells_facts h s hs).2).2)

theorem decodeLine_exportRow {t : Trade} (h : cleanTrade t = true) :
    decodeLine fieldNames (joinSep "," (exportRowCells t)).data = some t := by
  have hcellfacts := exportRowCells_facts h
  simp only [cleanTrade, Bool.and_eq_true, beq_iff_eq] at h
  obtain ⟨⟨⟨⟨⟨⟨⟨⟨⟨⟨⟨h1, h2⟩, h3⟩, h4⟩, h5⟩, h6⟩, h7⟩, h8⟩, h9⟩, h10⟩, h11⟩, h12⟩ := h
  have hsplit : splitOnChar ',' (joinSep "," (exportRowCells t)).data =
      (exportRowCells t).map String.data :=
    splitOnChar_joinSep rfl _ (by simp [exportRowCells])
      (fun s hs => (hcellfacts s hs).1.1)
  have hmapmk : ((exportRowCells t).map String.data).map (fun cs => (⟨cs⟩ : String)) =
      exportRowCells t := by
    rw [List.map_map]
    conv_rhs => rw [← List.map_id (exportRowCells t)]
    exact List.map_congr_left (fun s _ => rfl)
  have hF := fieldLookup_vals (intStr t.id) t.asset (jsIntOptStr t.tradeNumber)
    t.side t.date (jsNumStr t.lots) (jsNumStr t.entryPrice) (jsNumStr t.exitPrice)
    (jsNumStr t.points) (jsNumStr t.result) t.region t.structure' t.trigger
  have htrimOf : ∀ s ∈ exportRowCells t, jsTrimStr s = s := fun s hs =>
    jsTrimStr_eq_self (hcellfacts s hs).2
  have hmem : ∀ s ∈ ([intStr t.id, t.asset, jsIntOptStr t.tradeNumber, t.side, t.date,
      jsNumStr t.lots, jsNumStr t.entryPrice, jsNumStr t.exitPrice, jsNumStr t.points,
      jsNumStr t.result, t.region, t.structure', t.trigger] : List String),
      s ∈ exportRowCells t := fun s hs => hs
  simp only [decodeLine, hsplit, hmapmk]
  rw [show exportRowCells t = [intStr t.id, t.asset, jsIntOptStr t.tradeNumber, t.side,
    t.date, jsNumStr t.lots, jsNumStr t.entryPrice, jsNumStr t.exitPrice,
    jsNumStr t.points, jsNumStr t.result, t.region, t.structure', t.trigger] from rfl]
  have hlen : ([intStr t.id, t.asset, jsIntOptStr t.tradeNumber, t.side, t.date,
      jsNumStr t.lots, jsNumStr t.entryPrice, jsNumStr t.exitPrice, jsNumStr t.points,
      jsNumStr t.result, t.region, t.structure', t.trigger] : List String).length =
      fieldNames.length := rfl
  rw [if_pos hlen]
  rw [hF.1, hF.2.1, hF.2.2.1, hF.2.2.2.1, hF.2.2.2.2.1, hF.2.2.2.2.2.1,
    hF.2.2.2.2.2.2.1, hF.2.2.2.2.2.2.2.1, hF.2.2.2.2.2.2.2.2.1,
    hF.2.2.2.2.2.2.2.2.2.1, hF.2.2.2.2.2.2.2.2.2.2.1, hF.2.2.2.2.2.2.2.2.2.2.2.1,
    hF.2.2.2.2.2.2.2.2.2.2.2.2]
  rw [htrimOf _ (by simp [exportRowCells]), htrimOf _ (by simp [exportRowCells]),
    htrimOf _ (by simp [exportRowCells]), htrimOf _ (by simp [exportRowCells]),
    htrimOf _ (by simp [exportRowCells]), htrimOf _ (by simp [exportRowCells]),
    htrimOf _ (by simp [exportRowCells]), htrimOf _ (by simp [exportRowCells]),
    htrimOf _ (by simp [exportRowCells]), htrimOf _ (by simp [exportRowCells]),
    htrimOf _ (by simp [exportRowCells]), htrimOf _ (by simp [exportRowCells]),
    htrimOf _ (by simp [exportRowCells])]
  simp only [jsParseIntOpt, jsParseFloatOpt, jsParseInt_intStr, jsParseInt_jsIntOptStr,
    jsParseFloat_jsNumStr h8, jsParseFloat_jsNumStr h9, jsParseFloat_jsNumStr h10,
    jsParseFloat_jsNumStr h11, jsParseFloat_jsNumStr h12, Option.getD_some]
  rw [← h7]

theorem mapGet_nil (k : String) : mapGet [] k = none := rfl

theorem mapGet_append (a b : List (String × Nat)) (k : String) :
    mapGet (a ++ b) k = (mapGet b k).or (mapGet a k) := by
  induction a with
  | nil =>
    rw [List.nil_append, mapGet_nil]
    cases mapGet b k <;> rfl
  | cons e a' ih =>
    rw [List.cons_append]
    show (match mapGet (a' ++ b) k with
      | some v => some v
      | none => if e.1 = k then some e.2 else none) = _
    rw [ih]
    cases hb : mapGet b k with
    | some v => rfl
    | none =>
      rw [Option.none_or]
      rfl

theorem mapGet_mem {m : List (String × Nat)} {k : String} {v : Nat}
    (h : mapGet m k = some v) : (k, v) ∈ m := by
  induction m with
  | nil => simp [mapGet_nil] at h
  | cons e rest ih =>
    have h' : (match mapGet rest k with
      | some v => some v
      | none => if e.1 = k then some e.2 else none) = some v := h
    cases hr : mapGet rest k with
    | some w =>
      rw [hr] at h'
      simp only [Option.some.injEq] at h'
      subst h'
      exact List.mem_cons_of_mem _ (ih hr)
    | none =>
      rw [hr] at h'
      by_cases hek : e.1 = k
      · rw [if_pos hek] at h'
        have hv : e.2 = v := Option.some.inj h'
        cases e with
        | mk k0 v0 =>
          simp only at hek hv
          subst hek
          subst hv
          exact List.mem_cons_self _ _
      · rw [if_neg hek] at h'
        simp at h'

theorem mapGet_isSome_of_mem {m : List (String × Nat)} {k : String} {v : Nat}
    (h : (k, v) ∈ m) : (mapGet m k).isSome := by
  induction m with
  | nil => simp at h
  | cons e rest ih =>
    show (match mapGet rest k with
      | some v => some v
      | none => if e.1 = k then some e.2 else none).isSome
    cases hr : mapGet rest k with
    | some w => rfl
    | none =>
      rcases List.mem_cons.mp h with rfl | hmem
      · simp
      · have := ih hmem
        rw [hr] at this
        simp at this

theorem buildIndexAux_mem {rows : List (List String)} {i : Nat} {k : String} {v : Nat}
    (h : (k, v) ∈ buildIndexAux i rows) :
    ∃ j row, rows[j]? = some row ∧ row.headD "" = k ∧ k ≠ "" ∧ v = i + j + 2 := by
  induction rows generalizing i with
  | nil => simp [buildIndexAux] at h
  | cons row0 rest ih =>
    rw [show buildIndexAux i (row0 :: rest) =
      (if row0.headD "" ≠ "" then [(row0.headD "", i + 2)] else []) ++
        buildIndexAux (i + 1) rest from rfl, List.mem_append] at h
    rcases h with h | h
    · split at h
      · rename_i hne
        rw [List.mem_singleton] at h
        injection h with h1 h2
        exact ⟨0, row0, by simp, h1.symm, h1 ▸ hne, by omega⟩
      · simp at h
    · obtain ⟨j, row, hget, hk, hne, hv⟩ := ih h
      exact ⟨j + 1, row, by simpa using hget, hk, hne, by omega⟩

theorem buildIndexAux_mem_of_row {rows : List (List String)} {i j : Nat}
    {row : List String} {k : String} (hget : rows[j]? = some row)
    (hk : row.headD "" = k) (hne : k ≠ "") :
    (k, i + j + 2) ∈ buildIndexAux i rows := by
  induction rows generalizing i j with
  | nil => simp at hget
  | cons row0 rest ih =>
    rw [show buildIndexAux i (row0 :: rest) =
      (if row0.headD "" ≠ "" then [(row0.headD "", i + 2)] else []) ++
        buildIndexAux (i + 1) rest from rfl, List.mem_append]
    cases j with
    | zero =>
      left
      simp only [List.getElem?_cons_zero, Option.some.injEq] at hget
      subst hget
      rw [if_pos (hk ▸ hne)]
      rw [List.mem_singleton, hk]
    | succ j' =>
      right
      simp only [List.getElem?_cons_succ] at hget
      have := ih (i := i + 1) hget
      rw [show i + 1 + j' + 2 = i + (j' + 1) + 2 by omega] at this
      exact this

theorem mapGet_buildIndexAux_some {rows : List (List String)} {i : Nat} {k : String}
    {v : Nat} (h : mapGet (buildIndexAux i rows) k = some v) :
    ∃ j row, rows[j]? = some row ∧ row.headD "" = k ∧ k ≠ "" ∧ v = i + j + 2 :=
  buildIndexAux_mem (mapGet_mem h)

theorem mapGet_buildIndexAux_isSome {rows : List (List String)} {i j : Nat}
    {row : List String} {k : String} (hget : rows[j]? = some row)
    (hk : row.headD "" = k) (hne : k ≠ "") :
    (mapGet (buildIndexAux i rows) k).isSome :=
  mapGet_isSome_of_mem (buildIndexAux_mem_of_row hget hk hne)

theorem mapGet_buildIndexAux_last {rows : List (List String)} {i : Nat} {k : String}
    {v : Nat} (h : mapGet (buildIndexAux i rows) k = some v) :
    ∀ j' row', rows[j']? = some row' → v < i + j' + 2 → row'.headD "" ≠ k := by
  induction rows generalizing i with
  | nil => simp [buildIndexAux, mapGet_nil] at h
  | cons row0 rest ih =>
    rw [show buildIndexAux i (row0 :: rest) =
      (if row0.headD "" ≠ "" then [(row0.headD "", i + 2)] else []) ++
        buildIndexAux (i + 1) rest from rfl, mapGet_append] at h
    intro j' row' hget hlt
    cases hb : mapGet (buildIndexAux (i + 1) rest) k with
    | some w =>
      rw [hb] at h
      have hw : w = v := by
        simp only [Option.or] at h
        exact Option.some.inj h
      subst hw
      obtain ⟨j₀, rw₀, _, _, _, hv⟩ := mapGet_buildIndexAux_some hb
      cases j' with
      | zero => omega
      | succ j₁ =>
        simp only [List.getElem?_cons_succ] at hget
        exact ih hb j₁ row' hget (by omega)
    | none =>
      rw [hb] at h
      simp only [Option.none_or] at h
      cases j' with
      | zero =>
        simp only [List.getElem?_cons_zero, Option.some.injEq] at hget
        subst hget
        intro hkeq
        by_cases hc : row0.headD "" ≠ ""
        · rw [if_pos hc] at h
          have h' : (if row0.headD "" = k then some (i + 2) else none) = some v := h
          rw [if_pos hkeq] at h'
          have : i + 2 = v := Option.some.inj h'
          omega
        · rw [if_neg hc] at h
          exact Option.noConfusion h
      | succ j₁ =>
        simp only [List.getElem?_cons_succ] at hget
        intro hkeq
        have hkne : k ≠ "" := by
          intro hempty
          subst hempty
          by_cases hc : row0.headD "" ≠ ""
          · rw [if_pos hc] at h
            have h' : (if row0.headD "" = "" then some (i + 2) else none) = some v := h
            rw [if_neg hc] at h'
            exact Option.noConfusion h'
          · rw [if_neg hc] at h
            exact Option.noConfusion h
        have := mapGet_buildIndexAux_isSome (i := i + 1) hget hkeq hkne
        rw [hb] at this
        simp at this

theorem mapGet_buildIndexAux_of_last {rows : List (List String)} {i j : Nat}
    {row : List String} {k : String} (hget : rows[j]? = some row)
    (hk : row.headD "" = k) (hne : k ≠ "")
    (hlast : ∀ j' row', j < j' → rows[j']? = some row' → row'.headD "" ≠ k) :
    mapGet (buildIndexAux i rows) k = some (i + j + 2) := by
  induction rows generalizing i j with
  | nil => simp at hget
  | cons row0 rest ih =>
    rw [show buildIndexAux i (row0 :: rest) =
      (if row0.headD "" ≠ "" then [(row0.headD "", i + 2)] else []) ++
        buildIndexAux (i + 1) rest from rfl, mapGet_append]
    cases j with
    | zero =>
      simp only [List.getElem?_cons_zero, Option.some.injEq] at hget
      subst hget
      have hb : mapGet (buildIndexAux (i + 1) rest) k = none := by
        cases hb : mapGet (buildIndexAux (i + 1) rest) k with
        | none => rfl
        | some w =>
          obtain ⟨j₂, row₂, hget₂, hk₂, _, _⟩ := mapGet_buildIndexAux_some hb
          exact absurd hk₂ (hlast (j₂ + 1) row₂ (by omega) (by simpa using hget₂))
      rw [hb]
      simp only [Option.none_or]
      rw [if_pos (show row0.headD "" ≠ "" from fun hcc => hne (hk.symm.trans hcc))]
      show (if row0.headD "" = k then some (i + 2) else none) = some (i + 0 + 2)
      rw [if_pos hk]
    | succ j' =>
      simp only [List.getElem?_cons_succ] at hget
      have hrec := ih (i := i + 1) hget
        (fun j₂ row₂ hlt hget₂ => hlast (j₂ + 1) row₂ (by omega) (by simpa using hget₂))
      rw [hrec]
      simp only [Option.or]
      congr 1
      omega

theorem insertById_perm (t : Trade) (l : List Trade) :
    List.Perm (insertById t l) (t :: l) := by
  induction l with
  | nil => rfl
  | cons u us ih =>
    simp only [insertById]
    split
    · exact (ih.cons u).trans (List.Perm.swap t u us)
    · rfl

theorem sortById_perm (l : List Trade) : List.Perm (sortById l) l := by
  induction l with
  | nil => rfl
  | cons t ts ih => exact (insertById_perm t (sortById ts)).trans (ih.cons t)

theorem mem_sortById {u : Trade} {l : List Trade} : u ∈ sortById l ↔ u ∈ l :=
  (sortById_perm l).mem_iff

/-! ### Snapshot-effect lemmas: `values.update` calls on the remote rows -/

theorem getElem?_some_lt {α : Type} {l : List α} {i : Nat} {v : α}
    (h : l[i]? = some v) : i < l.length := by
  rw [List.getElem?_eq_some] at h
  exact h.1

theorem mem_of_getElem?_some {α : Type} {l : List α} {i : Nat} {v : α}
    (h : l[i]? = some v) : v ∈ l := by
  have hi : i < l.length := getElem?_some_lt h
  rw [List.getElem?_eq_getElem hi, Option.some.injEq] at h
  exact h ▸ List.getElem_mem hi

theorem set_getElem?_self {α : Type} {l : List α} {i : Nat} {v : α}
    (h : i < l.length) : (l.set i v)[i]? = some v := by
  rw [List.getElem?_set_self']
  simp [List.getElem?_eq_getElem h]

theorem set_eq_self_of_getElem? {α : Type} {l : List α} {i : Nat} {v : α}
    (h : l[i]? = some v) : l.set i v = l := by
  induction l generalizing i with
  | nil => simp at h
  | cons a t ih =>
    cases i with
    | zero =>
      simp only [List.getElem?_cons_zero, Option.some.injEq] at h
      rw [List.set_cons_zero, h]
    | succ j =>
      simp only [List.getElem?_cons_succ] at h
      rw [List.set_cons_succ, ih h]

theorem getD_of_getElem? {α : Type} {l : List α} {i : Nat} {v : α} (d : α)
    (h : l[i]? = some v) : l.getD i d = v := by
  rw [List.getD_eq_getElem?_getD, h]
  rfl

theorem headD_of_getElem?_zero {l : List (List String)} {a : List String}
    (h : l[0]? = some a) : l.headD [] = a := by
  cases l with
  | nil => simp at h
  | cons b t =>
    simp only [List.getElem?_cons_zero, Option.some.injEq] at h
    rw [List.headD_cons, h]

theorem padTo_eq_self {s : List (List String)} {n : Nat} (h : n ≤ s.length) :
    padTo s n = s := by
  rw [padTo, Nat.sub_eq_zero_of_le h]
  simp

theorem padTo_getElem?_lt {s : List (List String)} {n i : Nat} (h : i < s.length) :
    (padTo s n)[i]? = s[i]? := by
  rw [padTo, List.getElem?_append, if_pos h]

theorem padTo_length (s : List (List String)) (n : Nat) :
    (padTo s n).length = s.length + (n - s.length) := by
  rw [padTo, List.length_append, List.length_replicate]

theorem setRow_def (s : List (List String)) (r : Nat) (row : List String) :
    setRow s r row =
      (padTo s r).set (r - 1)
        (row ++ ((padTo s r).getD (r - 1) []).drop row.length) := rfl

theorem setRow_length_ge (s : List (List String)) (r : Nat) (row : List String) :
    s.length ≤ (setRow s r row).length := by
  rw [setRow_def, List.length_set, padTo_length]
  omega

theorem setRow_length_of_le {s : List (List String)} {r : Nat} (row : List String)
    (h : r ≤ s.length) : (setRow s r row).length = s.length := by
  rw [setRow_def, List.length_set, padTo_eq_self h]

theorem setRow_getElem?_ne {s : List (List String)} {r i : Nat} {row : List String}
    (hne : r - 1 ≠ i) (hi : i < s.length) : (setRow s r row)[i]? = s[i]? := by
  rw [setRow_def, List.getElem?_set_ne hne, padTo_getElem?_lt hi]

theorem setRow_getElem?_self {s : List (List String)} {r : Nat} {row orig : List String}
    (h2 : r - 1 < s.length) (horig : s[r - 1]? = some orig) :
    (setRow s r row)[r - 1]? = some (row ++ orig.drop row.length) := by
  have hp : (padTo s r)[r - 1]? = some orig := (padTo_getElem?_lt h2).trans horig
  rw [setRow_def, getD_of_getElem? [] hp]
  exact set_getElem?_self (lt_of_lt_of_le h2 (Nat.le_trans (Nat.le_refl _)
    (by rw [padTo_length]; omega)))

theorem setRow_eq_self {s : List (List String)} {r : Nat} {row cur : List String}
    (h2 : r ≤ s.length) (hcur : s[r - 1]? = some cur)
    (hfix : row ++ cur.drop row.length = cur) : setRow s r row = s := by
  rw [setRow_def, padTo_eq_self h2, getD_of_getElem? [] hcur, hfix]
  exact set_eq_self_of_getElem? hcur

theorem foldl_setRow_length_ge (ups : List (Nat × List String)) (s : List (List String)) :
    s.length ≤ (ups.foldl (fun acc pr => setRow acc pr.1 pr.2) s).length := by
  induction ups generalizing s with
  | nil => exact Nat.le_refl _
  | cons u us ih =>
    rw [List.foldl_cons]
    exact Nat.le_trans (setRow_length_ge s u.1 u.2) (ih _)

theorem foldl_setRow_length {ups : List (Nat × List String)} {s : List (List String)}
    (h : ∀ u ∈ ups, u.1 ≤ s.length) :
    (ups.foldl (fun acc pr => setRow acc pr.1 pr.2) s).length = s.length := by
  induction ups generalizing s with
  | nil => rfl
  | cons u us ih =>
    rw [List.foldl_cons]
    have hlen : (setRow s u.1 u.2).length = s.length :=
      setRow_length_of_le u.2 (h u (List.mem_cons_self _ _))
    rw [ih (fun u' hu' => by rw [hlen]; exact h u' (List.mem_cons_of_mem _ hu')), hlen]

theorem foldl_setRow_getElem?_ne {ups : List (Nat × List String)} {s : List (List String)}
    {i : Nat} (h : ∀ u ∈ ups, u.1 - 1 ≠ i) (hi : i < s.length) :
    (ups.foldl (fun acc pr => setRow acc pr.1 pr.2) s)[i]? = s[i]? := by
  induction ups generalizing s with
  | nil => rfl
  | cons u us ih =>
    rw [List.foldl_cons]
    have h1 : (setRow s u.1 u.2)[i]? = s[i]? :=
      setRow_getElem?_ne (h u (List.mem_cons_self _ _)) hi
    have hlen : i < (setRow s u.1 u.2).length :=
      lt_of_lt_of_le hi (setRow_length_ge s u.1 u.2)
    rw [ih (fun u' hu' => h u' (List.mem_cons_of_mem _ hu')) hlen, h1]

theorem foldl_setRow_hit {ups : List (Nat × List String)} {s : List (List String)}
    {u : Nat × List String} {orig : List String}
    (hnd : (ups.map Prod.fst).Nodup) (hpos : ∀ w ∈ ups, 1 ≤ w.1)
    (hu : u ∈ ups) (h2 : u.1 - 1 < s.length) (horig : s[u.1 - 1]? = some orig) :
    (ups.foldl (fun acc pr => setRow acc pr.1 pr.2) s)[u.1 - 1]? =
      some (u.2 ++ orig.drop u.2.length) := by
  induction ups generalizing s with
  | nil => simp at hu
  | cons w us ih =>
    rw [List.foldl_cons]
    rw [List.map_cons, List.nodup_cons] at hnd
    rcases List.mem_cons.mp hu with heq | hu'
    · subst heq
      have hrow : (setRow s u.1 u.2)[u.1 - 1]? = some (u.2 ++ orig.drop u.2.length) :=
        setRow_getElem?_self h2 horig
      have hne : ∀ u' ∈ us, u'.1 - 1 ≠ u.1 - 1 := by
        intro u' hu'
        have hne1 : u'.1 ≠ u.1 := by
          intro he
          exact hnd.1 (he ▸ List.mem_map_of_mem Prod.fst hu')
        have h1 := hpos u (List.mem_cons_self _ _)
        have h1' := hpos u' (List.mem_cons_of_mem _ hu')
        omega
      have hlen : u.1 - 1 < (setRow s u.1 u.2).length :=
        lt_of_lt_of_le h2 (setRow_length_ge s u.1 u.2)
      rw [foldl_setRow_getElem?_ne hne hlen, hrow]
    · have hwne : w.1 - 1 ≠ u.1 - 1 := by
        have hne1 : w.1 ≠ u.1 := by
          intro he
          exact hnd.1 (he ▸ List.mem_map_of_mem Prod.fst hu')
        have h1 := hpos w (List.mem_cons_self _ _)
        have h1' := hpos u (List.mem_cons_of_mem _ hu')
        omega
      have hrow : (setRow s w.1 w.2)[u.1 - 1]? = some orig :=
        (setRow_getElem?_ne hwne h2).trans horig
      exact ih hnd.2 (fun w' hw' => hpos w' (List.mem_cons_of_mem _ hw')) hu'
        (lt_of_lt_of_le h2 (setRow_length_ge s w.1 w.2)) hrow

theorem foldl_setRow_id {ups : List (Nat × List String)} {s : List (List String)}
    (h : ∀ u ∈ ups, setRow s u.1 u.2 = s) :
    ups.foldl (fun acc pr => setRow acc pr.1 pr.2) s = s := by
  induction ups with
  | nil => rfl
  | cons u us ih =>
    rw [List.foldl_cons, h u (List.mem_cons_self _ _)]
    exact ih (fun u' hu' => h u' (List.mem_cons_of_mem _ hu'))

/-! ### Header-row and identity-index lemmas -/

theorem header_valid_prefix (rest : List String) :
    headerIsMissingOrInvalid (headerRowS ++ rest) = false := by
  rw [headerIsMissingOrInvalid, List.any_eq_false]
  intro p hp
  have he : headerRowS.enum = [(0, "ID"), (1, "Ativo"), (2, "# Operação"), (3, "Lado"),
      (4, "Data"), (5, "Lotes"), (6, "Preço Entrada"), (7, "Preço Saída"), (8, "Pontos"),
      (9, "Resultado R$"), (10, "Região"), (11, "Estrutura"), (12, "Gatilho"),
      (13, "Notas")] := rfl
  rw [he] at hp
  simp only [List.mem_cons, List.not_mem_nil, or_false] at hp
  rcases hp with rfl|rfl|rfl|rfl|rfl|rfl|rfl|rfl|rfl|rfl|rfl|rfl|rfl|rfl <;>
    simp only [ne_eq, decide_not, Bool.not_eq_true', decide_eq_false_iff_not, not_not] <;>
    rw [List.getElem?_append, if_pos (by decide)] <;> decide

theorem header_invalid_nil : headerIsMissingOrInvalid ([] : List String) = true := rfl

theorem header_valid_ne_nil {sv : List (List String)}
    (h : headerIsMissingOrInvalid (sv.headD []) = false) : sv ≠ [] := by
  intro he
  subst he
  exact absurd h (by decide)

theorem buildSheetMap_some {s : List (List String)} {k : String} {r : Nat}
    (h : mapGet (buildSheetMap s) k = some r) :
    ∃ row, s[r - 1]? = some row ∧ row.headD "" = k ∧ k ≠ "" ∧ 2 ≤ r ∧ r ≤ s.length := by
  obtain ⟨j, row, hget, hk, hne, hv⟩ := mapGet_buildIndexAux_some h
  rw [List.getElem?_drop] at hget
  subst hv
  refine ⟨row, ?_, hk, hne, by omega, ?_⟩
  · rw [show 0 + j + 2 - 1 = 1 + j by omega]
    exact hget
  · have := getElem?_some_lt hget
    omega

theorem buildSheetMap_last {s : List (List String)} {k : String} {r : Nat}
    (h : mapGet (buildSheetMap s) k = some r) :
    ∀ r' row', r < r' → s[r' - 1]? = some row' → row'.headD "" ≠ k := by
  intro r' row' hlt hget
  have h2 : 2 ≤ r := by
    obtain ⟨_, _, _, _, h2, _⟩ := buildSheetMap_some h
    exact h2
  have hget' : (s.drop 1)[r' - 2]? = some row' := by
    rw [List.getElem?_drop, show 1 + (r' - 2) = r' - 1 by omega]
    exact hget
  exact mapGet_buildIndexAux_last h (r' - 2) row' hget' (by omega)

theorem buildSheetMap_isSome {s : List (List String)} {k : String} {r : Nat}
    {row : List String} (h2 : 2 ≤ r) (hget : s[r - 1]? = some row)
    (hk : row.headD "" = k) (hne : k ≠ "") :
    (mapGet (buildSheetMap s) k).isSome := by
  have hget' : (s.drop 1)[r - 2]? = some row := by
    rw [List.getElem?_drop, show 1 + (r - 2) = r - 1 by omega]
    exact hget
  exact mapGet_buildIndexAux_isSome hget' hk hne

theorem buildSheetMap_of_last {s : List (List String)} {k : String} {r : Nat}
    {row : List String} (h2 : 2 ≤ r) (hget : s[r - 1]? = some row)
    (hk : row.headD "" = k) (hne : k ≠ "")
    (hlast : ∀ r' row', r < r' → s[r' - 1]? = some row' → row'.headD "" ≠ k) :
    mapGet (buildSheetMap s) k = some r := by
  have hget' : (s.drop 1)[r - 2]? = some row := by
    rw [List.getElem?_drop, show 1 + (r - 2) = r - 1 by omega]
    exact hget
  have hlast' : ∀ j' row', (s.drop 1)[j']? = some row' →
      (0 : Nat) + (r - 2) + 2 ≤ 0 + j' + 2 → r - 2 < j' → row'.headD "" ≠ k := by
    intro j' row' hget₂ _ hlt
    rw [List.getElem?_drop] at hget₂
    refine hlast (j' + 2) row' (by omega) ?_
    rw [show j' + 2 - 1 = 1 + j' by omega]
    exact hget₂
  have hres := mapGet_buildIndexAux_of_last (i := 0) hget' hk hne
    (fun j' row' hj hget₂ => hlast' j' row' hget₂ (by omega) hj)
  show mapGet (buildIndexAux 0 (s.drop 1)) k = some r
  rw [hres]
  congr 1
  omega

/-! ### Classification-loop characterization -/

theorem classifyTrades_fst (m : List (String × Nat)) (ts : List Trade) :
    (classifyTrades m ts).1 =
      ts.filterMap (fun t =>
        (mapGet m (intStr t.id)).map (fun r => (r, tradeToRow t))) := by
  induction ts with
  | nil => rfl
  | cons t ts ih =>
    cases hm : mapGet m (intStr t.id) with
    | some r =>
      simp only [classifyTrades, hm, List.filterMap_cons, Option.map_some']
      rw [ih]
    | none =>
      simp only [classifyTrades, hm, List.filterMap_cons, Option.map_none']
      exact ih

theorem classifyTrades_snd (m : List (String × Nat)) (ts : List Trade) :
    (classifyTrades m ts).2 =
      (ts.filter (fun t => (mapGet m (intStr t.id)).isNone)).map tradeToRow := by
  induction ts with
  | nil => rfl
  | cons t ts ih =>
    cases hm : mapGet m (intStr t.id) with
    | some r =>
      simp only [classifyTrades, hm, List.filter_cons, Option.isNone_some,
        Bool.false_eq_true, if_false]
      exact ih
    | none =>
      simp only [classifyTrades, hm, List.filter_cons, Option.isNone_none, if_true,
        List.map_cons]
      rw [ih]

theorem mem_classify_updates {m : List (String × Nat)} {ts : List Trade}
    {u : Nat × List String} (hu : u ∈ (classifyTrades m ts).1) :
    ∃ t ∈ ts, mapGet m (intStr t.id) = some u.1 ∧ u.2 = tradeToRow t := by
  rw [classifyTrades_fst] at hu
  obtain ⟨t, ht, hf⟩ := List.mem_filterMap.mp hu
  cases hm : mapGet m (intStr t.id) with
  | none => rw [hm] at hf; exact absurd hf (by simp)
  | some r =>
    rw [hm] at hf
    simp only [Option.map_some', Option.some.injEq] at hf
    exact ⟨t, ht, by rw [hm, ← hf], by rw [← hf]⟩

theorem classify_updates_mem {m : List (String × Nat)} {ts : List Trade} {t : Trade}
    {r : Nat} (ht : t ∈ ts) (hm : mapGet m (intStr t.id) = some r) :
    (r, tradeToRow t) ∈ (classifyTrades m ts).1 := by
  rw [classifyTrades_fst]
  exact List.mem_filterMap.mpr ⟨t, ht, by rw [hm]; rfl⟩

theorem classify_appends_mem {m : List (String × Nat)} {ts : List Trade} {t : Trade}
    (ht : t ∈ ts) (hm : mapGet m (intStr t.id) = none) :
    tradeToRow t ∈ (classifyTrades m ts).2 := by
  rw [classifyTrades_snd]
  exact List.mem_map_of_mem tradeToRow (List.mem_filter.mpr ⟨ht, by rw [hm]; rfl⟩)

theorem classify_updates_map_fst (m : List (String × Nat)) (ts : List Trade) :
    (classifyTrades m ts).1.map Prod.fst =
      ts.filterMap (fun t => mapGet m (intStr t.id)) := by
  rw [classifyTrades_fst, List.map_filterMap]
  have h : ∀ t : Trade,
      ((mapGet m (intStr t.id)).map (fun r => (r, tradeToRow t))).map Prod.fst =
        mapGet m (intStr t.id) := by
    intro t
    cases mapGet m (intStr t.id) <;> rfl
  simp only [h]

theorem nodup_filterMap_memInj {α β : Type} {l : List α} {f : α → Option β}
    (hl : l.Nodup)
    (h : ∀ a ∈ l, ∀ a' ∈ l, ∀ b, f a = some b → f a' = some b → a = a') :
    (l.filterMap f).Nodup := by
  induction l with
  | nil => exact List.nodup_nil
  | cons a t ih =>
    rw [List.nodup_cons] at hl
    cases hf : f a with
    | none =>
      rw [List.filterMap_cons_none hf]
      exact ih hl.2 (fun x hx y hy => h x (List.mem_cons_of_mem _ hx) y
        (List.mem_cons_of_mem _ hy))
    | some b =>
      rw [List.filterMap_cons_some hf, List.nodup_cons]
      refine ⟨?_, ih hl.2 (fun x hx y hy => h x (List.mem_cons_of_mem _ hx) y
        (List.mem_cons_of_mem _ hy))⟩
      intro hb
      obtain ⟨a', ha', hfa'⟩ := List.mem_filterMap.mp hb
      have heq : a = a' := h a (List.mem_cons_self _ _) a'
        (List.mem_cons_of_mem _ ha') b hf hfa'
      exact hl.1 (heq ▸ ha')

theorem rows_last_occurrence {rows : List (List String)}
    (hnd : (rows.map (fun r => r.headD "")).Nodup) {row : List String} (hm : row ∈ rows) :
    ∃ i : Nat, rows[i]? = some row ∧
      ∀ (i' : Nat) (row' : List String), i < i' → rows[i']? = some row' →
        row'.headD "" ≠ row.headD "" := by
  induction rows with
  | nil => simp at hm
  | cons a t ih =>
    rw [List.map_cons, List.nodup_cons] at hnd
    rcases List.mem_cons.mp hm with heq | hm'
    · subst heq
      refine ⟨0, by simp, ?_⟩
      intro i' row' hlt hget
      cases i' with
      | zero => omega
      | succ j =>
        simp only [List.getElem?_cons_succ] at hget
        intro hkeq
        exact hnd.1 (hkeq ▸ List.mem_map_of_mem (fun r => r.headD "")
          (mem_of_getElem?_some hget))
    · obtain ⟨i, hget, hlast⟩ := ih hnd.2 hm'
      refine ⟨i + 1, by simpa using hget, ?_⟩
      intro i' row' hlt hget'
      cases i' with
      | zero => omega
      | succ j =>
        simp only [List.getElem?_cons_succ] at hget'
        exact hlast j row' (by omega) hget'

theorem append_block_lookup {base apps : List (List String)} {row : List String}
    (hL : 1 ≤ base.length)
    (hnd : (apps.map (fun r => r.headD "")).Nodup)
    (hm : row ∈ apps) (hne : row.headD "" ≠ "") :
    ∃ r, mapGet (buildSheetMap (base ++ apps)) (row.headD "") = some r ∧
      (base ++ apps)[r - 1]? = some row ∧ 2 ≤ r ∧ r ≤ (base ++ apps).length := by
  obtain ⟨i, hgeti, hlasti⟩ := rows_last_occurrence hnd hm
  have hilen : i < apps.length := getElem?_some_lt hgeti
  have hget2 : (base ++ apps)[base.length + i + 1 - 1]? = some row := by
    rw [show base.length + i + 1 - 1 = base.length + i by omega,
      List.getElem?_append_right (by omega),
      show base.length + i - base.length = i by omega]
    exact hgeti
  have h2r : 2 ≤ base.length + i + 1 := by omega
  have hler : base.length + i + 1 ≤ (base ++ apps).length := by
    rw [List.length_append]
    omega
  refine ⟨base.length + i + 1, ?_, hget2, h2r, hler⟩
  refine buildSheetMap_of_last h2r hget2 rfl hne ?_
  intro r' row' hlt hget'
  have hz : base.length ≤ r' - 1 := by omega
  rw [List.getElem?_append_right hz] at hget'
  exact hlasti (r' - 1 - base.length) row' (by omega) hget'

/-! ### One full reconciler pass -/

theorem syncPlan_headerInvalid (trades : List Trade) (sv : List (List String)) :
    (syncPlan trades sv).headerInvalid = headerIsMissingOrInvalid (sv.headD []) := rfl

theorem syncPlan_updates (trades : List Trade) (sv : List (List String)) :
    (syncPlan trades sv).updates =
      (classifyTrades (if headerIsMissingOrInvalid (sv.headD []) then []
        else buildSheetMap sv) trades).1 := rfl

theorem syncPlan_appends (trades : List Trade) (sv : List (List String)) :
    (syncPlan trades sv).appends =
      (classifyTrades (if headerIsMissingOrInvalid (sv.headD []) then []
        else buildSheetMap sv) trades).2 := rfl

theorem applySyncPlan_def (p : SyncPlan) (s : List (List String)) :
    applySyncPlan p s =
      (p.updates.foldl (fun acc pr => setRow acc pr.1 pr.2)
        (if p.headerInvalid then setRow s 1 headerRowS else s)) ++ p.appends := rfl

theorem classify_empty_fst (ts : List Trade) : (classifyTrades [] ts).1 = [] := by
  induction ts with
  | nil => rfl
  | cons a t ih =>
    simp only [classifyTrades, mapGet_nil]
    exact ih

theorem classify_empty_snd (ts : List Trade) :
    (classifyTrades [] ts).2 = ts.map tradeToRow := by
  induction ts with
  | nil => rfl
  | cons a t ih =>
    simp only [classifyTrades, mapGet_nil, List.map_cons]
    rw [ih]

theorem applySyncPlan_header_valid (trades : List Trade) (sv : List (List String)) :
    headerIsMissingOrInvalid ((applySyncPlan (syncPlan trades sv) sv).headD []) = false := by
  have happly : applySyncPlan (syncPlan trades sv) sv =
      ((classifyTrades (if headerIsMissingOrInvalid (sv.headD []) then []
          else buildSheetMap sv) trades).1.foldl (fun acc pr => setRow acc pr.1 pr.2)
        (if headerIsMissingOrInvalid (sv.headD []) then setRow sv 1 headerRowS else sv)) ++
      (classifyTrades (if headerIsMissingOrInvalid (sv.headD []) then []
          else buildSheetMap sv) trades).2 := rfl
  rw [happly]
  cases hinv : headerIsMissingOrInvalid (sv.headD []) with
  | true =>
    simp only [reduceIte]
    rw [classify_empty_fst, List.foldl_nil]
    have hp0 : 0 < (padTo sv 1).length := by
      rw [padTo_length]
      omega
    have h0 : (setRow sv 1 headerRowS)[0]? =
        some (headerRowS ++ ((padTo sv 1).getD 0 []).drop headerRowS.length) := by
      rw [setRow_def]
      exact set_getElem?_self hp0
    have hl : 0 < (setRow sv 1 headerRowS).length := by
      rw [setRow_def, List.length_set]
      exact hp0
    have h0' : ((setRow sv 1 headerRowS) ++ (classifyTrades [] trades).2)[0]? =
        some (headerRowS ++ ((padTo sv 1).getD 0 []).drop headerRowS.length) := by
      rw [List.getElem?_append, if_pos hl]
      exact h0
    rw [headD_of_getElem?_zero h0']
    exact header_valid_prefix _
  | false =>
    simp only [Bool.false_eq_true, if_false]
    have hsvne : sv ≠ [] := header_valid_ne_nil hinv
    cases sv with
    | nil => exact absurd rfl hsvne
    | cons h0 tl =>
      have hne : ∀ u ∈ (classifyTrades (buildSheetMap (h0 :: tl)) trades).1,
          u.1 - 1 ≠ 0 := by
        intro u hu
        obtain ⟨t', _, hm', _⟩ := mem_classify_updates hu
        obtain ⟨_, _, _, _, h2, _⟩ := buildSheetMap_some hm'
        omega
      have hget0 : ((classifyTrades (buildSheetMap (h0 :: tl)) trades).1.foldl
          (fun acc pr => setRow acc pr.1 pr.2) (h0 :: tl))[0]? = some h0 := by
        rw [foldl_setRow_getElem?_ne hne (by simp)]
        simp
      have hfull : (((classifyTrades (buildSheetMap (h0 :: tl)) trades).1.foldl
          (fun acc pr => setRow acc pr.1 pr.2) (h0 :: tl)) ++
          (classifyTrades (buildSheetMap (h0 :: tl)) trades).2)[0]? = some h0 := by
        rw [List.getElem?_append, if_pos (lt_of_lt_of_le (by simp)
          (foldl_setRow_length_ge _ _))]
        exact hget0
      rw [headD_of_getElem?_zero hfull]
      exact hinv

theorem pass_establishes {trades : List Trade} (sv : List (List String))
    (hnd : (trades.map (fun t => t.id)).Nodup) {t : Trade} (ht : t ∈ trades) :
    ∃ r cur,
      mapGet (buildSheetMap (applySyncPlan (syncPlan trades sv) sv)) (intStr t.id)
          = some r ∧
      (applySyncPlan (syncPlan trades sv) sv)[r - 1]? = some cur ∧
      tradeToRow t ++ cur.drop (tradeToRow t).length = cur ∧
      2 ≤ r ∧ r ≤ (applySyncPlan (syncPlan trades sv) sv).length := by
  have happly : applySyncPlan (syncPlan trades sv) sv =
      ((classifyTrades (if headerIsMissingOrInvalid (sv.headD []) then []
          else buildSheetMap sv) trades).1.foldl (fun acc pr => setRow acc pr.1 pr.2)
        (if headerIsMissingOrInvalid (sv.headD []) then setRow sv 1 headerRowS else sv)) ++
      (classifyTrades (if headerIsMissingOrInvalid (sv.headD []) then []
          else buildSheetMap sv) trades).2 := rfl
  rw [happly]
  cases hinv : headerIsMissingOrInvalid (sv.headD []) with
  | true =>
    simp only [reduceIte]
    rw [classify_empty_fst, classify_empty_snd, List.foldl_nil]
    have hL : 1 ≤ (setRow sv 1 headerRowS).length := by
      rw [setRow_def, List.length_set, padTo_length]
      omega
    have hkeys : (trades.map tradeToRow).map (fun r => r.headD "") =
        (trades.map (fun t => t.id)).map intStr := by
      rw [List.map_map, List.map_map]
      rfl
    have hnd' : ((trades.map tradeToRow).map (fun r => r.headD "")).Nodup := by
      rw [hkeys]
      exact List.Nodup.map intStr_injective hnd
    obtain ⟨r, hmap, hget, h2r, hler⟩ := append_block_lookup hL hnd'
      (List.mem_map_of_mem tradeToRow ht)
      (show (tradeToRow t).headD "" ≠ "" from intStr_ne_empty t.id)
    refine ⟨r, tradeToRow t, hmap, hget, ?_, h2r, hler⟩
    rw [List.drop_length, List.append_nil]
  | false =>
    simp only [Bool.false_eq_true, if_false]
    have hsvne : sv ≠ [] := header_valid_ne_nil hinv
    have hsvlen : 1 ≤ sv.length := by
      cases sv with
      | nil => exact absurd rfl hsvne
      | cons a l => simp
    have htarget : ∀ u ∈ (classifyTrades (buildSheetMap sv) trades).1,
        ∃ t' ∈ trades, mapGet (buildSheetMap sv) (intStr t'.id) = some u.1 ∧
          u.2 = tradeToRow t' := fun u hu => mem_classify_updates hu
    have hrange : ∀ u ∈ (classifyTrades (buildSheetMap sv) trades).1,
        2 ≤ u.1 ∧ u.1 ≤ sv.length := by
      intro u hu
      obtain ⟨t', _, hm', _⟩ := htarget u hu
      obtain ⟨_, _, _, _, h2, hle⟩ := buildSheetMap_some hm'
      exact ⟨h2, hle⟩
    have hndfst : ((classifyTrades (buildSheetMap sv) trades).1.map Prod.fst).Nodup := by
      rw [classify_updates_map_fst]
      refine nodup_filterMap_memInj (List.Nodup.of_map _ hnd) ?_
      intro a ha a' ha' b hfa hfa'
      obtain ⟨rowa, hga, hka, _, _, _⟩ := buildSheetMap_some hfa
      obtain ⟨rowa', hga', hka', _, _, _⟩ := buildSheetMap_some hfa'
      rw [hga] at hga'
      have hrow : rowa = rowa' := Option.some.inj hga'
      have hkk : intStr a.id = intStr a'.id := by rw [← hka, ← hka', hrow]
      exact List.inj_on_of_nodup_map hnd ha ha' (intStr_injective hkk)
    have hLfold : ((classifyTrades (buildSheetMap sv) trades).1.foldl
        (fun acc pr => setRow acc pr.1 pr.2) sv).length = sv.length :=
      foldl_setRow_length (fun u hu => (hrange u hu).2)
    cases hmt : mapGet (buildSheetMap sv) (intStr t.id) with
    | none =>
      have hmem : tradeToRow t ∈ (classifyTrades (buildSheetMap sv) trades).2 :=
        classify_appends_mem ht hmt
      have hndapp : ((classifyTrades (buildSheetMap sv) trades).2.map
          (fun r => r.headD "")).Nodup := by
        rw [classifyTrades_snd, List.map_map,
          show ((fun r => List.headD r "") ∘ tradeToRow)
            = intStr ∘ (fun t' : Trade => t'.id) from rfl,
          ← List.map_map]
        exact List.Nodup.map intStr_injective
          (List.Nodup.sublist (List.Sublist.map _ (List.filter_sublist trades)) hnd)
      obtain ⟨r, hmap, hget, h2r, hler⟩ := append_block_lookup
        (by rw [hLfold]; exact hsvlen) hndapp hmem
        (show (tradeToRow t).headD "" ≠ "" from intStr_ne_empty t.id)
      refine ⟨r, tradeToRow t, hmap, hget, ?_, h2r, hler⟩
      rw [List.drop_length, List.append_nil]
    | some r₁ =>
      obtain ⟨orig, horig, hkorig, hnek, h2r1, hler1⟩ := buildSheetMap_some hmt
      have hu : (r₁, tradeToRow t) ∈ (classifyTrades (buildSheetMap sv) trades).1 :=
        classify_updates_mem ht hmt
      have hlt1 : r₁ - 1 < sv.length := by omega
      have hhit : ((classifyTrades (buildSheetMap sv) trades).1.foldl
          (fun acc pr => setRow acc pr.1 pr.2) sv)[r₁ - 1]? =
          some (tradeToRow t ++ orig.drop (tradeToRow t).length) :=
        foldl_setRow_hit hndfst (fun w hw => by have := (hrange w hw).1; omega)
          hu hlt1 horig
      have hgetfull : (((classifyTrades (buildSheetMap sv) trades).1.foldl
          (fun acc pr => setRow acc pr.1 pr.2) sv) ++
          (classifyTrades (buildSheetMap sv) trades).2)[r₁ - 1]? =
          some (tradeToRow t ++ orig.drop (tradeToRow t).length) := by
        rw [List.getElem?_append, if_pos (by rw [hLfold]; omega)]
        exact hhit
      refine ⟨r₁, tradeToRow t ++ orig.drop (tradeToRow t).length, ?_, hgetfull, ?_,
        h2r1, ?_⟩
      · refine buildSheetMap_of_last h2r1 hgetfull
          (show (tradeToRow t ++ orig.drop (tradeToRow t).length).headD ""
            = intStr t.id from rfl) hnek ?_
        intro r' row' hlt hget'
        by_cases hz : r' - 1 < sv.length
        · rw [List.getElem?_append, if_pos (by rw [hLfold]; exact hz)] at hget'
          by_cases hupd : ∃ u' ∈ (classifyTrades (buildSheetMap sv) trades).1, u'.1 = r'
          · obtain ⟨u', hu', he⟩ := hupd
            obtain ⟨t', ht', hmt', hrow'⟩ := htarget u' hu'
            obtain ⟨orig', horig', _, _, h2', hle'⟩ := buildSheetMap_some hmt'
            have hhit' := foldl_setRow_hit hndfst
              (fun w hw => by have := (hrange w hw).1; omega) hu'
              (by omega) horig'
            subst he
            rw [hhit'] at hget'
            have hrweq := Option.some.inj hget'
            intro hkeq
            have hh : row'.headD "" = intStr t'.id := by
              rw [← hrweq, hrow']
              rfl
            have hkk : intStr t'.id = intStr t.id := by rw [← hh, hkeq]
            have hid : t'.id = t.id := intStr_injective hkk
            rw [hid, hmt] at hmt'
            have := Option.some.inj hmt'
            omega
          · push_neg at hupd
            have hne' : ∀ u' ∈ (classifyTrades (buildSheetMap sv) trades).1,
                u'.1 - 1 ≠ r' - 1 := by
              intro u' hu'
              have h2 := (hrange u' hu').1
              have := hupd u' hu'
              omega
            rw [foldl_setRow_getElem?_ne hne' hz] at hget'
            exact buildSheetMap_last hmt r' row' hlt hget'
        · rw [List.getElem?_append, if_neg (by rw [hLfold]; exact hz)] at hget'
          have hmem' := mem_of_getElem?_some hget'
          rw [classifyTrades_snd] at hmem'
          obtain ⟨t'', ht'', hrow''⟩ := List.mem_map.mp hmem'
          have hfil := (List.mem_filter.mp ht'').2
          have hnone : mapGet (buildSheetMap sv) (intStr t''.id) = none :=
            Option.isNone_iff_eq_none.mp hfil
          intro hkeq
          have hh : row'.headD "" = intStr t''.id := by
            rw [← hrow'']
            rfl
          have hkk : intStr t''.id = intStr t.id := by rw [← hh, hkeq]
          have hid : t''.id = t.id := intStr_injective hkk
          rw [hid, hmt] at hnone
          exact Option.noConfusion hnone
      · rw [List.drop_left]
      · rw [List.length_append, hLfold]
        omega

theorem syncOps_def (trades : List Trade) (sv : List (List String)) :
    syncOps trades sv =
      (if (syncPlan trades sv).headerInvalid then [RemoteOp.update 1 [headerRowS]]
        else []) ++
      (if (syncPlan trades sv).updates ≠ [] then
        [RemoteOp.batchUpdate (syncPlan trades sv).updates] else []) ++
      (if (syncPlan trades sv).appends ≠ [] then
        [RemoteOp.append (syncPlan trades sv).appends] else []) := rfl

/-! ## Claim theorems -/

/-- C4: `parseNumber` satisfies its locale contract: with both `,` and `.`
present, the separator kind appearing last is the decimal point and the other
is stripped everywhere; with only `,` present it is the decimal point; empty
or null input yields NaN; a string that fails to parse after normalization
yields NaN (the parse result of the normalized string, `none` on failure,
never a silent zero); and the four concrete examples hold. -/
theorem C4_parseNumber_locale_contract :
    parseLocaleNumber none = none ∧
    parseLocaleNumber (some "") = none ∧
    parseLocaleNumber (some "1.234,56") = some (1234.56 : ℚ) ∧
    parseLocaleNumber (some "1,234.56") = some (1234.56 : ℚ) ∧
    parseLocaleNumber (some "12,5") = some (12.5 : ℚ) ∧
    (∀ s : String, s ≠ "" →
      (jsTrim s.data).contains ',' = true →
      (jsTrim s.data).contains '.' = true →
      (lastIdx (jsTrim s.data) ',' > lastIdx (jsTrim s.data) '.' →
        parseLocaleNumber (some s) =
          jsParseFloat ⟨replaceFirst ((jsTrim s.data).filter (· ≠ '.')) ',' '.'⟩) ∧
      (¬ lastIdx (jsTrim s.data) ',' > lastIdx (jsTrim s.data) '.' →
        parseLocaleNumber (some s) =
          jsParseFloat ⟨(jsTrim s.data).filter (· ≠ ',')⟩)) ∧
    (∀ s : String, s ≠ "" →
      (jsTrim s.data).contains ',' = true →
      (jsTrim s.data).contains '.' = false →
      parseLocaleNumber (some s) = jsParseFloat ⟨replaceFirst (jsTrim s.data) ',' '.'⟩) := by
  refine ⟨rfl, rfl, ?_, ?_, ?_, ?_, ?_⟩
  · have h : parseLocaleNumber (some "1.234,56") = some (jsFloatVal false 1234 56 2 0) := rfl
    rw [h]
    norm_num [jsFloatVal]
  · have h : parseLocaleNumber (some "1,234.56") = some (jsFloatVal false 1234 56 2 0) := rfl
    rw [h]
    norm_num [jsFloatVal]
  · have h : parseLocaleNumber (some "12,5") = some (jsFloatVal false 12 5 1 0) := rfl
    rw [h]
    norm_num [jsFloatVal]
  · intro s hs hc hd
    constructor
    · intro hlt
      simp only [parseLocaleNumber, if_neg hs, hc, hd, Bool.and_self, if_pos, if_pos hlt]
    · intro hlt
      simp only [parseLocaleNumber, if_neg hs, hc, hd, Bool.and_self, if_pos, if_neg hlt]
  · intro s hs hc hd
    simp only [parseLocaleNumber, if_neg hs, hc, hd, Bool.and_false, Bool.false_eq_true,
      if_neg, if_pos, reduceIte]

/-- C4 witness: the universally quantified branch clauses instantiated at
concrete inputs. -/
theorem C4_parseNumber_locale_contract_witness :
    parseLocaleNumber (some "1.234,56") =
      jsParseFloat ⟨replaceFirst ((jsTrim ("1.234,56" : String).data).filter (· ≠ '.')) ',' '.'⟩ ∧
    parseLocaleNumber (some "1,234.56") =
      jsParseFloat ⟨(jsTrim ("1,234.56" : String).data).filter (· ≠ ',')⟩ ∧
    parseLocaleNumber (some "12,5") =
      jsParseFloat ⟨replaceFirst (jsTrim ("12,5" : String).data) ',' '.'⟩ :=
  ⟨(C4_parseNumber_locale_contract.2.2.2.2.2.1 "1.234,56" (by decide) (by decide)
      (by decide)).1 (by decide),
   (C4_parseNumber_locale_contract.2.2.2.2.2.1 "1,234.56" (by decide) (by decide)
      (by decide)).2 (by decide),
   C4_parseNumber_locale_contract.2.2.2.2.2.2 "12,5" (by decide) (by decide) (by decide)⟩

/-- C5: `computeMetrics` returns points `exit - entry` for Buy (`'Compra'`)
and `entry - exit` for Sell (`'Venda'`), and result `points * lots * 10`,
both rounded to 2 decimal digits; concretely, Sell with lots 1, entry 50,
exit 48 yields points 2.00 and result 20.00. -/
theorem C5_computeMetrics_contract :
    (∀ lots entryPrice exitPrice : ℚ,
        calculateTradeMetrics "Compra" lots entryPrice exitPrice =
          (round2 (exitPrice - entryPrice),
           round2 ((exitPrice - entryPrice) * lots * 10))) ∧
    (∀ lots entryPrice exitPrice : ℚ,
        calculateTradeMetrics "Venda" lots entryPrice exitPrice =
          (round2 (entryPrice - exitPrice),
           round2 ((entryPrice - exitPrice) * lots * 10))) ∧
    calculateTradeMetrics "Venda" 1 50 48 = (2, 20) := by
  refine ⟨?_, ?_, ?_⟩
  · intro lots entryPrice exitPrice
    simp only [calculateTradeMetrics, reduceIte, Prod.mk.injEq, true_and]
    congr 1
    ring
  · intro lots entryPrice exitPrice
    simp only [calculateTradeMetrics, String.reduceEq, reduceIte, Prod.mk.injEq, true_and]
    congr 1
    ring
  · simp only [calculateTradeMetrics, String.reduceEq, reduceIte]
    norm_num [round2, roundHalfAwayFromZero]

/-- C10: a trade whose result is exactly 0 passes the result-sign filter for
selector `'Loss'` (the Loss predicate is `result <= 0`, the Gain predicate is
`result > 0`), while its displayed status is `'Zero a Zero'`, neither Gain
nor Loss. -/
theorem C10_zero_result_loss_filter (t : Trade) (h : t.result = some 0) :
    resultSelMatch "Loss" t.result = true ∧
    resultSelMatch "Gain" t.result = false ∧
    getTradeStatus t = ("Zero a Zero", "zero") ∧
    t ∈ applyFilters ⟨"", "Todos", "", "Loss"⟩ [t] ∧
    (∀ q : ℚ, resultSelMatch "Loss" (some q) = decide (q ≤ 0)) ∧
    (∀ q : ℚ, resultSelMatch "Gain" (some q) = decide (0 < q)) := by
  refine ⟨?_, ?_, ?_, ?_, ?_, ?_⟩
  · simp [resultSelMatch, jsLeZ, h]
  · simp [resultSelMatch, jsGtZ, h]
  · simp [getTradeStatus, jsGtZ, jsLtZ, h]
  · simp [applyFilters, List.mem_filter, tradeMatches, resultSelMatch, jsLeZ, h]
  · intro q
    simp [resultSelMatch, jsLeZ]
  · intro q
    simp [resultSelMatch, jsGtZ]

/-- C6: merge-on-import excludes decoded trades whose id is already in the
Ledger, so after one import every decoded id is present, and a second import
of the same file takes the no-new-trades branch and leaves the Ledger
exactly unchanged. -/
theorem C6_import_idempotent (text : String) (trades : List Trade) :
    (decodeCSV text).filter
        (fun t => ¬ ((importCSV text trades).map (fun u => u.id)).contains t.id) = [] ∧
    importCSV text (importCSV text trades) = importCSV text trades := by
  have key : ∀ t ∈ decodeCSV text, t.id ∈ (importCSV text trades).map (fun u => u.id) := by
    intro t ht
    by_cases hc : t.id ∈ trades.map (fun u => u.id)
    · simp only [importCSV]
      split
      · exact hc
      · rcases List.mem_map.mp hc with ⟨u, hu, hid⟩
        exact List.mem_map.mpr ⟨u, mem_sortById.mpr (List.mem_append_left _ hu), hid⟩
    · have htN : t ∈ (decodeCSV text).filter
          (fun t => ¬ (trades.map (fun t => t.id)).contains t.id) := by
        simp only [List.mem_filter, decide_not]
        exact ⟨ht, by simpa using hc⟩
      simp only [importCSV]
      split
      · rename_i hnil
        rw [hnil] at htN
        simp at htN
      · exact List.mem_map.mpr ⟨t, mem_sortById.mpr (List.mem_append_right _ htN), rfl⟩
  have h1 : (decodeCSV text).filter
      (fun t => ¬ ((importCSV text trades).map (fun u => u.id)).contains t.id) = [] := by
    rw [List.filter_eq_nil_iff]
    intro t ht
    simp only [decide_not, Bool.not_eq_true', decide_eq_false_iff_not, not_not]
    simpa using key t ht
  refine ⟨h1, ?_⟩
  generalize hT : importCSV text trades = T1 at h1 ⊢
  simp only [importCSV]
  rw [if_pos h1]

/-- C7 counterexample: a Ledger whose asset contains the cell delimiter is
not reproduced by the codec round trip: its encoded row has 14 fields
against the 13-label header, so the decoder skips the row and returns no
trades at all. -/
theorem C7_counterexample :
    decodeCSV (encodeCSV [commaAssetTrade]) = [] ∧
    decodeCSV (encodeCSV [commaAssetTrade]) ≠ [commaAssetTrade] :=
  ⟨by decide, by decide⟩

/-- C7 amended: the CSV round trip reproduces the trade list exactly for
every Ledger whose trades have delimiter-free, trim-invariant text fields,
empty notes (the codec does not carry notes), and decimal-finite numeric
values — the conditions `cleanTrade` captures. -/
theorem C7_amended_roundtrip (trades : List Trade)
    (hcl : ∀ t ∈ trades, cleanTrade t = true) :
    decodeCSV (encodeCSV trades) = trades := by
  cases trades with
  | nil => decide
  | cons t0 ts =>
    set H : String := joinSep "," exportHeaderLabels with hH
    set R : String :=
      joinSep "\n" ((t0 :: ts).map (fun t => joinSep "," (exportRowCells t))) with hR
    have henc : encodeCSV (t0 :: ts) = H ++ "\n" ++ R := rfl
    have hdata : (H ++ "\n" ++ R).data = H.data ++ '\n' :: R.data := by
      rw [String.data_append, String.data_append]
      simp
    have hrowsne : ((t0 :: ts).map (fun t => joinSep "," (exportRowCells t))) ≠ [] := by
      simp
    have hrowfacts : ∀ s ∈ (t0 :: ts).map (fun t => joinSep "," (exportRowCells t)),
        s.data ≠ [] ∧ ∀ c ∈ s.data.getLast?, c.isWhitespace = false := by
      intro s hs
      rcases List.mem_map.mp hs with ⟨t, ht, rfl⟩
      exact ⟨rowStr_ne_nil t, rowStr_last_ws (hcl t ht)⟩
    have hRne : R.data ≠ [] := by
      rw [hR]
      exact (joinNl_facts hrowsne hrowfacts).1
    have hRlast : ∀ c ∈ R.data.getLast?, c.isWhitespace = false := by
      rw [hR]
      exact (joinNl_facts hrowsne hrowfacts).2
    have htrim : jsTrim (H ++ "\n" ++ R).data = (H ++ "\n" ++ R).data := by
      rw [hdata]
      apply jsTrim_eq_self
      · intro x hx
        rw [List.head?_append] at hx
        have hHhead : H.data.head? = some 'i' := by
          rw [hH]
          decide
        rw [hHhead] at hx
        rw [show (some 'i').or (('\n' :: R.data).head?) = some 'i' from rfl] at hx
        rw [Option.mem_some_iff] at hx
        subst hx
        decide
      · intro x hx
        rw [List.getLast?_append] at hx
        cases hRd : R.data with
        | nil => exact absurd hRd hRne
        | cons z zs =>
          rw [hRd, List.getLast?_cons_cons] at hx
          have hiss : (z :: zs).getLast?.isSome := by
            cases hgl : (z :: zs).getLast? with
            | none =>
              rw [List.getLast?_eq_none_iff] at hgl
              simp at hgl
            | some _ => rfl
          rw [Option.or_of_isSome hiss, ← hRd] at hx
          exact hRlast x hx
    have hrowc : ∀ s ∈ (t0 :: ts).map (fun t => joinSep "," (exportRowCells t)),
        '\n' ∉ s.data ∧ '\r' ∉ s.data := by
      intro s hs
      rcases List.mem_map.mp hs with ⟨t, ht, rfl⟩
      exact rowStr_no_nl (hcl t ht)
    have hsplitAll : splitLinesRN (jsTrim (encodeCSV (t0 :: ts)).data) =
        H.data ::
          (((t0 :: ts).map (fun t => joinSep "," (exportRowCells t))).map String.data) := by
      rw [henc, htrim, hdata,
        splitLinesRN_append (by rw [hH]; decide) (by rw [hH]; decide), hR,
        splitLinesRN_joinSep _ hrowsne hrowc]
    have hhdrs : (splitOnChar ',' H.data).map
        (fun cs => importHeaderMapping (jsTrimStr ⟨cs⟩)) = fieldNames := by
      rw [hH]
      decide
    unfold decodeCSV
    rw [hsplitAll]
    simp only [if_neg (show ¬ (H.data = []) from by rw [hH]; decide), hhdrs,
      List.filterMap_map]
    exact filterMap_eq_self (fun t ht => decodeLine_exportRow (hcl t ht))

/-- C7 amended witness: a concrete clean one-trade ledger round-trips. -/
theorem C7_amended_roundtrip_witness :
    decodeCSV (encodeCSV [sampleTrade 3 (some 0)]) = [sampleTrade 3 (some 0)] :=
  C7_amended_roundtrip [sampleTrade 3 (some 0)] (by decide)

/-- C8 counterexample: importing a file whose two well-formed rows share the
fresh id 5 into an empty Ledger yields two trades with the same id — import
deduplicates only against ids already present in the Ledger, not within the
imported file. -/
theorem C8_counterexample :
    (importCSV dupCsvText []).map (fun t => t.id) = [5, 5] ∧
    ¬ ((importCSV dupCsvText []).map (fun t => t.id)).Nodup :=
  ⟨by decide, by decide⟩

/-- C8 amended: id uniqueness is preserved by creation when the clock value
`Date.now()` is not already an existing id, and by CSV import when the
surviving decoded trades themselves carry no duplicate id; the code does not
enforce either condition. -/
theorem C8_amended_unique_id (trades : List Trade)
    (hnd : (trades.map (fun t => t.id)).Nodup) :
    (∀ (now : Int) (form : TradeForm), now ∉ trades.map (fun t => t.id) →
        ((addTrade now form trades).map (fun t => t.id)).Nodup) ∧
    (∀ text : String,
        (((decodeCSV text).filter
            (fun t => ¬ (trades.map (fun u => u.id)).contains t.id)).map
          (fun t => t.id)).Nodup →
        ((importCSV text trades).map (fun t => t.id)).Nodup) := by
  constructor
  · intro now form hnow
    simp only [addTrade, List.map_append, List.map_cons, List.map_nil]
    rw [List.nodup_append]
    refine ⟨hnd, List.nodup_singleton _, ?_⟩
    intro a ha hb
    rw [List.mem_singleton] at hb
    subst hb
    exact hnow ha
  · intro text hN
    simp only [importCSV]
    split
    · exact hnd
    · rw [List.Perm.nodup_iff ((sortById_perm _).map (fun t => t.id)),
        List.map_append, List.nodup_append]
      refine ⟨hnd, hN, ?_⟩
      intro a ha hb
      rcases List.mem_map.mp hb with ⟨u, hu, hid⟩
      have := (List.mem_filter.mp hu).2
      simp only [decide_not, Bool.not_eq_true', decide_eq_false_iff_not] at this
      exact this (by simpa [hid] using ha)

/-- C8 amended witness: the amended preservation applied to a concrete
one-trade ledger, a fresh clock value, and a duplicate-free file. -/
theorem C8_amended_unique_id_witness :
    ((addTrade 99 sampleForm [sampleTrade 1 none]).map (fun t => t.id)).Nodup ∧
    ((importCSV okCsvText [sampleTrade 1 none]).map (fun t => t.id)).Nodup :=
  ⟨(C8_amended_unique_id [sampleTrade 1 none] (by decide)).1 99 sampleForm (by decide),
   (C8_amended_unique_id [sampleTrade 1 none] (by decide)).2 okCsvText (by decide)⟩

/-- C9 counterexample: a reconciliation (`syncToSheet`) failure during a
silent (background) pass still issues a user-visible alert — the claim that
silent failures are never shown to the user is false for `syncToSheet`. -/
theorem C9_counterexample :
    syncToSheetFailureAlerts true "Falha ao sincronizar com a planilha." ≠ [] := by
  decide

/-- C9 amended: only the taxonomy sync (`syncRegOptionsToSheet`) suppresses
its failure alert when triggered silently; a `syncToSheet` failure is always
alerted, with a background-error prefix when silent and an interactive
prefix otherwise. -/
theorem C9_amended_silent_failures :
    syncRegOptionsFailureAlerts true = [] ∧
    (∀ msg : String, syncToSheetFailureAlerts true msg =
      ["Erro na sincronização automática em segundo plano." ++ "\n\n" ++ msg]) ∧
    (∀ msg : String, syncToSheetFailureAlerts false msg =
      ["Ocorreu um erro ao sincronizar." ++ "\n\n" ++ msg]) ∧
    syncRegOptionsFailureAlerts false ≠ [] :=
  ⟨rfl, fun _ => rfl, fun _ => rfl, by decide⟩

/-- C10 witness: the theorem applied to a concrete zero-result trade. -/
theorem C10_zero_result_loss_filter_witness :
    resultSelMatch "Loss" (sampleTrade 1 (some 0)).result = true ∧
    resultSelMatch "Gain" (sampleTrade 1 (some 0)).result = false ∧
    getTradeStatus (sampleTrade 1 (some 0)) = ("Zero a Zero", "zero") ∧
    sampleTrade 1 (some 0) ∈ applyFilters ⟨"", "Todos", "", "Loss"⟩ [sampleTrade 1 (some 0)] ∧
    (∀ q : ℚ, resultSelMatch "Loss" (some q) = decide (q ≤ 0)) ∧
    (∀ q : ℚ, resultSelMatch "Gain" (some q) = decide (0 < q)) :=
  C10_zero_result_loss_filter (sampleTrade 1 (some 0)) rfl

/-- C1: in a reconciler pass over a snapshot whose header row is valid, every
local trade whose id string is bound in the identity index is classified as
an update targeting the bound 1-based row position, a position that indeed
holds a remote row whose first cell is exactly that id string, and every
other local trade is classified as an append; when the header row is missing
or invalid the identity index is empty, so the pass issues no updates,
classifies all local trades as appends, and its first remote call rewrites
the correct header row at A1. -/
theorem C1_reconciler_classification (trades : List Trade) (sv : List (List String)) :
    (headerIsMissingOrInvalid (sv.headD []) = false →
      (∀ t ∈ trades, ∀ r : Nat, mapGet (buildSheetMap sv) (intStr t.id) = some r →
        (r, tradeToRow t) ∈ (syncPlan trades sv).updates ∧
        ∃ row, sv[r - 1]? = some row ∧ row.headD "" = intStr t.id) ∧
      (∀ t ∈ trades, mapGet (buildSheetMap sv) (intStr t.id) = none →
        tradeToRow t ∈ (syncPlan trades sv).appends)) ∧
    (headerIsMissingOrInvalid (sv.headD []) = true →
      (syncPlan trades sv).updates = [] ∧
      (syncPlan trades sv).appends = trades.map tradeToRow ∧
      (syncOps trades sv).head? = some (RemoteOp.update 1 [headerRowS])) := by
  constructor
  · intro hinv
    constructor
    · intro t ht r hmt
      constructor
      · rw [syncPlan_updates, hinv]
        simp only [Bool.false_eq_true, if_false]
        exact classify_updates_mem ht hmt
      · obtain ⟨row, hget, hk, _, _, _⟩ := buildSheetMap_some hmt
        exact ⟨row, hget, hk⟩
    · intro t ht hmt
      rw [syncPlan_appends, hinv]
      simp only [Bool.false_eq_true, if_false]
      exact classify_appends_mem ht hmt
  · intro hinv
    refine ⟨?_, ?_, ?_⟩
    · rw [syncPlan_updates, hinv, if_pos rfl]
      exact classify_empty_fst trades
    · rw [syncPlan_appends, hinv, if_pos rfl]
      exact classify_empty_snd trades
    · rw [syncOps_def, syncPlan_headerInvalid, hinv, if_pos rfl,
        List.singleton_append, List.cons_append]
      rfl

/-- C1 witness: the theorem applied to a one-trade ledger against the empty
snapshot, whose header row is missing, yielding the header rewrite first and
a pure-append classification. -/
theorem C1_reconciler_classification_witness :
    headerIsMissingOrInvalid (([] : List (List String)).headD []) = true ∧
    ((syncPlan [sampleTrade 5 (some 10)] []).updates = [] ∧
     (syncPlan [sampleTrade 5 (some 10)] []).appends
       = [sampleTrade 5 (some 10)].map tradeToRow ∧
     (syncOps [sampleTrade 5 (some 10)] []).head?
       = some (RemoteOp.update 1 [headerRowS])) :=
  ⟨by decide, (C1_reconciler_classification [sampleTrade 5 (some 10)] []).2 (by decide)⟩

/-- C2: removing a trade issues no remote call at all; every remote call a
reconciler pass issues is a header update, batched row update or append,
never a clear or a row deletion; and a remote data row that carries the id of
a trade absent from the Ledger (for instance one just deleted locally) is
bytewise unchanged by applying a reconciler pass. -/
theorem C2_delete_never_propagates :
    confirmDeleteOps = [] ∧
    (∀ (trades : List Trade) (sv : List (List String)), ∀ op ∈ syncOps trades sv,
      op.isDeleteOrClear = false) ∧
    (∀ (d : Int) (trades : List Trade) (sv : List (List String)) (r : Nat)
        (row : List String),
      (∀ t ∈ trades, t.id ≠ d) → 2 ≤ r → sv[r - 1]? = some row →
      row.headD "" = intStr d →
      (applySyncPlan (syncPlan trades sv) sv)[r - 1]? = some row) := by
  refine ⟨rfl, ?_, ?_⟩
  · intro trades sv op hop
    rw [syncOps_def] at hop
    rcases List.mem_append.mp hop with h12 | h3
    · rcases List.mem_append.mp h12 with h1 | h2
      · split at h1
        · rw [List.mem_singleton] at h1
          subst h1
          rfl
        · simp at h1
      · split at h2
        · rw [List.mem_singleton] at h2
          subst h2
          rfl
        · simp at h2
    · split at h3
      · rw [List.mem_singleton] at h3
        subst h3
        rfl
      · simp at h3
  · intro d trades sv r row hexcl h2r hget hkrow
    have happly : applySyncPlan (syncPlan trades sv) sv =
        ((classifyTrades (if headerIsMissingOrInvalid (sv.headD []) then []
            else buildSheetMap sv) trades).1.foldl (fun acc pr => setRow acc pr.1 pr.2)
          (if headerIsMissingOrInvalid (sv.headD []) then setRow sv 1 headerRowS
            else sv)) ++
        (classifyTrades (if headerIsMissingOrInvalid (sv.headD []) then []
            else buildSheetMap sv) trades).2 := rfl
    rw [happly]
    have hrlen : r - 1 < sv.length := getElem?_some_lt hget
    cases hinv : headerIsMissingOrInvalid (sv.headD []) with
    | true =>
      simp only [reduceIte]
      rw [classify_empty_fst, List.foldl_nil]
      have h1 : (setRow sv 1 headerRowS)[r - 1]? = some row := by
        rw [setRow_getElem?_ne (by omega) hrlen]
        exact hget
      rw [List.getElem?_append,
        if_pos (by rw [setRow_length_of_le _ (by omega)]; exact hrlen)]
      exact h1
    | false =>
      simp only [Bool.false_eq_true, if_false]
      have hne : ∀ u ∈ (classifyTrades (buildSheetMap sv) trades).1,
          u.1 - 1 ≠ r - 1 := by
        intro u hu
        obtain ⟨t', ht', hmt', _⟩ := mem_classify_updates hu
        obtain ⟨row', hget', hk', _, h2', _⟩ := buildSheetMap_some hmt'
        intro he
        have hur : u.1 = r := by omega
        rw [hur, hget] at hget'
        have hroweq : row = row' := Option.some.inj hget'
        rw [← hroweq, hkrow] at hk'
        exact (hexcl t' ht') (intStr_injective hk').symm
      have hfold : ((classifyTrades (buildSheetMap sv) trades).1.foldl
          (fun acc pr => setRow acc pr.1 pr.2) sv)[r - 1]? = some row := by
        rw [foldl_setRow_getElem?_ne hne hrlen]
        exact hget
      rw [List.getElem?_append,
        if_pos (lt_of_lt_of_le hrlen (foldl_setRow_length_ge _ _))]
      exact hfold

/-- C2 witness: the preservation clause applied to a snapshot holding the row
of a deleted trade with id 99, against a ledger that no longer contains it:
the pass leaves that row untouched. -/
theorem C2_delete_never_propagates_witness :
    (∀ t ∈ [sampleTrade 5 (some 10)], t.id ≠ (99 : Int)) ∧
    (2 : Nat) ≤ 2 ∧
    ([headerRowS, [intStr 99, "x"]] : List (List String))[2 - 1]?
      = some [intStr 99, "x"] ∧
    ([intStr 99, "x"] : List String).headD "" = intStr 99 ∧
    (applySyncPlan (syncPlan [sampleTrade 5 (some 10)] [headerRowS, [intStr 99, "x"]])
      [headerRowS, [intStr 99, "x"]])[2 - 1]? = some [intStr 99, "x"] :=
  ⟨by decide, by decide, by decide, by decide,
   C2_delete_never_propagates.2.2 99 [sampleTrade 5 (some 10)]
     [headerRowS, [intStr 99, "x"]] 2 [intStr 99, "x"]
     (by decide) (by decide) (by decide) (by decide)⟩

/-- C3: the reconciler is idempotent: when the Ledger's ids are pairwise
distinct, a second pass run against the snapshot produced by a first pass
(with no intervening local changes) finds a valid header, classifies every
local trade as an update whose written cells are exactly the trade's own row
(zero appends), and applying that second pass returns the snapshot
unchanged. -/
theorem C3_reconciler_idempotent (trades : List Trade) (sv : List (List String))
    (hnd : (trades.map (fun t => t.id)).Nodup) :
    (syncPlan trades (applySyncPlan (syncPlan trades sv) sv)).headerInvalid = false ∧
    (syncPlan trades (applySyncPlan (syncPlan trades sv) sv)).appends = [] ∧
    (syncPlan trades (applySyncPlan (syncPlan trades sv) sv)).updates.map Prod.snd
      = trades.map tradeToRow ∧
    applySyncPlan (syncPlan trades (applySyncPlan (syncPlan trades sv) sv))
      (applySyncPlan (syncPlan trades sv) sv) = applySyncPlan (syncPlan trades sv) sv := by
  have hinv2 : headerIsMissingOrInvalid
      ((applySyncPlan (syncPlan trades sv) sv).headD []) = false :=
    applySyncPlan_header_valid trades sv
  have hsome : ∀ t ∈ trades,
      mapGet (buildSheetMap (applySyncPlan (syncPlan trades sv) sv)) (intStr t.id)
        ≠ none := by
    intro t ht hn
    obtain ⟨r, cur, hm, _⟩ := pass_establishes sv hnd ht
    rw [hn] at hm
    exact Option.noConfusion hm
  have hupd2 : (syncPlan trades (applySyncPlan (syncPlan trades sv) sv)).updates =
      (classifyTrades (buildSheetMap (applySyncPlan (syncPlan trades sv) sv))
        trades).1 := by
    rw [syncPlan_updates, hinv2]
    simp only [Bool.false_eq_true, if_false]
  have happs_nil : (syncPlan trades (applySyncPlan (syncPlan trades sv) sv)).appends
      = [] := by
    rw [syncPlan_appends, hinv2]
    simp only [Bool.false_eq_true, if_false]
    rw [classifyTrades_snd]
    have hfil : trades.filter (fun t =>
        (mapGet (buildSheetMap (applySyncPlan (syncPlan trades sv) sv))
          (intStr t.id)).isNone) = [] := by
      rw [List.filter_eq_nil_iff]
      intro t ht hisnone
      exact hsome t ht (Option.isNone_iff_eq_none.mp hisnone)
    rw [hfil]
    rfl
  have hsnd : ∀ ts : List Trade, (∀ t ∈ ts,
      mapGet (buildSheetMap (applySyncPlan (syncPlan trades sv) sv)) (intStr t.id)
        ≠ none) →
      (classifyTrades (buildSheetMap (applySyncPlan (syncPlan trades sv) sv)) ts).1.map
        Prod.snd = ts.map tradeToRow := by
    intro ts
    induction ts with
    | nil => intro _; rfl
    | cons a t ih =>
      intro hall
      cases hm : mapGet (buildSheetMap (applySyncPlan (syncPlan trades sv) sv))
          (intStr a.id) with
      | none => exact absurd hm (hall a (List.mem_cons_self _ _))
      | some r =>
        simp only [classifyTrades, hm, List.map_cons]
        rw [ih (fun x hx => hall x (List.mem_cons_of_mem _ hx))]
  refine ⟨by rw [syncPlan_headerInvalid]; exact hinv2, happs_nil, ?_, ?_⟩
  · rw [hupd2]
    exact hsnd trades hsome
  · rw [applySyncPlan_def, syncPlan_headerInvalid, hinv2, happs_nil]
    simp only [Bool.false_eq_true, if_false]
    rw [List.append_nil]
    apply foldl_setRow_id
    intro u hu
    rw [hupd2] at hu
    obtain ⟨t', ht', hmt', hrow'⟩ := mem_classify_updates hu
    obtain ⟨r, cur, hm, hget, hfix, h2r, hler⟩ := pass_establishes sv hnd ht'
    rw [hm] at hmt'
    have hur : u.1 = r := (Option.some.inj hmt').symm
    exact @setRow_eq_self _ u.1 u.2 cur (by omega) (by rw [hur]; exact hget)
      (by rw [hrow']; exact hfix)

/-- C3 witness: the idempotence theorem applied to the one-trade ledger
holding `sampleTrade 5 (some 10)` against the empty remote snapshot, the
Nodup hypothesis discharged by computation. -/
theorem C3_reconciler_idempotent_witness :
    (([sampleTrade 5 (some 10)].map (fun t => t.id)).Nodup) ∧
    ((syncPlan [sampleTrade 5 (some 10)]
        (applySyncPlan (syncPlan [sampleTrade 5 (some 10)] []) [])).headerInvalid
      = false ∧
     (syncPlan [sampleTrade 5 (some 10)]
        (applySyncPlan (syncPlan [sampleTrade 5 (some 10)] []) [])).appends = [] ∧
     (syncPlan [sampleTrade 5 (some 10)]
        (applySyncPlan (syncPlan [sampleTrade 5 (some 10)] []) [])).updates.map Prod.snd
       = [sampleTrade 5 (some 10)].map tradeToRow ∧
     applySyncPlan (syncPlan [sampleTrade 5 (some 10)]
         (applySyncPlan (syncPlan [sampleTrade 5 (some 10)] []) []))
       (applySyncPlan (syncPlan [sampleTrade 5 (some 10)] []) [])
       = applySyncPlan (syncPlan [sampleTrade 5 (some 10)] []) []) :=
  ⟨by decide, C3_reconciler_idempotent [sampleTrade 5 (some 10)] [] (by decide)⟩

end DiarioTrader
